import Mathlib

/-!
Verification of the Fish Tank Donk 3D core (src/core/math3d.py,
src/core/transform.py, src/core/renderer.py) against its specification.

Modelling conventions used throughout this development:

* Python floats are modelled as elements of a `LinearOrderedField α`
  (instantiated at `ℚ` for executable witnesses and at `ℝ` where the code
  calls `math.sqrt` / `math.tan` / `math.pi`); float literals in the source
  are read as the exact rationals they denote, and float rounding is not
  modelled.
* `float('inf')` (the cleared depth-buffer value) is modelled as `none` in
  an `Option α` depth cell, every finite depth being smaller than it.
* Python objects mutated in place are modelled by explicit state passing:
  each operation takes the old value and returns the new one.
* The `Transform` scene graph is modelled as a function from node ids
  (`Nat`) to node records whose parent id, when present, is strictly
  smaller than the node id; this numbers any finite forest and makes the
  parent chains well founded, matching the tree assumption of the spec
  (re-parenting that would create a cycle makes the Python recursion
  diverge and is outside every claim).
-/

namespace FT

/-- Machine epsilon used by the source (`EPSILON = 1e-10` in math3d.py). -/
def EPSILON (α : Type) [LinearOrderedField α] : α := 1 / 10 ^ 10

/-- Module level `lerp(a, b, t) = a + (b - a) * t` from math3d.py. -/
def lerpF {α : Type} [LinearOrderedField α] (a b t : α) : α := a + (b - a) * t

/-- Module level `clamp(value, min_val, max_val)` from math3d.py. -/
def clampF {α : Type} [LinearOrderedField α] (value minVal maxVal : α) : α :=
  max minVal (min maxVal value)

/-- A 3D vector, `Vector3` from math3d.py. -/
structure Vector3 (α : Type) where
  x : α
  y : α
  z : α
  deriving DecidableEq

/-- A quaternion `(x, y, z, w)` with scalar part `w`, from math3d.py. -/
structure Quaternion (α : Type) where
  x : α
  y : α
  z : α
  w : α
  deriving DecidableEq

/-- A 4x4 row-major matrix, `Matrix4` from math3d.py; field `mIJ` is
`self.m[I][J]` of the Python object. -/
structure Matrix4 (α : Type) where
  m00 : α
  m01 : α
  m02 : α
  m03 : α
  m10 : α
  m11 : α
  m12 : α
  m13 : α
  m20 : α
  m21 : α
  m22 : α
  m23 : α
  m30 : α
  m31 : α
  m32 : α
  m33 : α
  deriving DecidableEq

variable {α : Type} [LinearOrderedField α]

/-- Componentwise vector subtraction (`Vector3.__sub__`). -/
def Vector3.sub (a b : Vector3 α) : Vector3 α := ⟨a.x - b.x, a.y - b.y, a.z - b.z⟩

/-- Vector dot product (`Vector3.dot`). -/
def Vector3.dot (a b : Vector3 α) : α := a.x * b.x + a.y * b.y + a.z * b.z

/-- Vector cross product (`Vector3.cross`). -/
def Vector3.cross (a b : Vector3 α) : Vector3 α :=
  ⟨a.y * b.z - a.z * b.y, a.z * b.x - a.x * b.z, a.x * b.y - a.y * b.x⟩

/-- Squared magnitude (`Vector3.magnitude_squared`), which needs no square
root and so is field generic. -/
def Vector3.magnitudeSquared (v : Vector3 α) : α := v.x * v.x + v.y * v.y + v.z * v.z

/-- Componentwise approximate equality with strict tolerance, mirroring
`Vector3.approximately_equal`. -/
def Vector3.approximatelyEqual (a b : Vector3 α) (tol : α) : Prop :=
  |a.x - b.x| < tol ∧ |a.y - b.y| < tol ∧ |a.z - b.z| < tol

/-- Quaternion dot product (`Quaternion.dot`). -/
def Quaternion.dot (a b : Quaternion α) : α :=
  a.x * b.x + a.y * b.y + a.z * b.z + a.w * b.w

/-- Double-cover aware approximate equality, mirroring
`Quaternion.approximately_equal`: `abs(dot) > 1 - tolerance`. -/
def Quaternion.approximatelyEqual (a b : Quaternion α) (tol : α) : Prop :=
  1 - tol < |a.dot b|

/-- The identity quaternion `(0, 0, 0, 1)`. -/
def Quaternion.identity : Quaternion α := ⟨0, 0, 0, 1⟩

/-- The identity matrix (default `Matrix4()` construction). -/
def Matrix4.identity : Matrix4 α :=
  ⟨1, 0, 0, 0, 0, 1, 0, 0, 0, 0, 1, 0, 0, 0, 0, 1⟩

/-- The zero matrix (`Matrix4.zero`). -/
def Matrix4.zero : Matrix4 α :=
  ⟨0, 0, 0, 0, 0, 0, 0, 0, 0, 0, 0, 0, 0, 0, 0, 0⟩

/-- Row-major matrix product (`Matrix4.__mul__` on matrices): entry `(i, j)`
is the sum over `k` of `self.m[i][k] * other.m[k][j]`. -/
def Matrix4.mul (a b : Matrix4 α) : Matrix4 α where
  m00 := a.m00 * b.m00 + a.m01 * b.m10 + a.m02 * b.m20 + a.m03 * b.m30
  m01 := a.m00 * b.m01 + a.m01 * b.m11 + a.m02 * b.m21 + a.m03 * b.m31
  m02 := a.m00 * b.m02 + a.m01 * b.m12 + a.m02 * b.m22 + a.m03 * b.m32
  m03 := a.m00 * b.m03 + a.m01 * b.m13 + a.m02 * b.m23 + a.m03 * b.m33
  m10 := a.m10 * b.m00 + a.m11 * b.m10 + a.m12 * b.m20 + a.m13 * b.m30
  m11 := a.m10 * b.m01 + a.m11 * b.m11 + a.m12 * b.m21 + a.m13 * b.m31
  m12 := a.m10 * b.m02 + a.m11 * b.m12 + a.m12 * b.m22 + a.m13 * b.m32
  m13 := a.m10 * b.m03 + a.m11 * b.m13 + a.m12 * b.m23 + a.m13 * b.m33
  m20 := a.m20 * b.m00 + a.m21 * b.m10 + a.m22 * b.m20 + a.m23 * b.m30
  m21 := a.m20 * b.m01 + a.m21 * b.m11 + a.m22 * b.m21 + a.m23 * b.m31
  m22 := a.m20 * b.m02 + a.m21 * b.m12 + a.m22 * b.m22 + a.m23 * b.m32
  m23 := a.m20 * b.m03 + a.m21 * b.m13 + a.m22 * b.m23 + a.m23 * b.m33
  m30 := a.m30 * b.m00 + a.m31 * b.m10 + a.m32 * b.m20 + a.m33 * b.m30
  m31 := a.m30 * b.m01 + a.m31 * b.m11 + a.m32 * b.m21 + a.m33 * b.m31
  m32 := a.m30 * b.m02 + a.m31 * b.m12 + a.m32 * b.m22 + a.m33 * b.m32
  m33 := a.m30 * b.m03 + a.m31 * b.m13 + a.m32 * b.m23 + a.m33 * b.m33

/-- Rotation matrix of a quaternion (`Matrix4.from_quaternion`), with the
doubled products written exactly as in the source. -/
def Matrix4.fromQuaternion (q : Quaternion α) : Matrix4 α :=
  let x2 := q.x + q.x
  let y2 := q.y + q.y
  let z2 := q.z + q.z
  let xx := q.x * x2
  let xy := q.x * y2
  let xz := q.x * z2
  let yy := q.y * y2
  let yz := q.y * z2
  let zz := q.z * z2
  let wx := q.w * x2
  let wy := q.w * y2
  let wz := q.w * z2
  ⟨1 - (yy + zz), xy - wz, xz + wy, 0,
   xy + wz, 1 - (xx + zz), yz - wx, 0,
   xz - wy, yz + wx, 1 - (xx + yy), 0,
   0, 0, 0, 1⟩

/-- TRS composition (`Matrix4.trs`): the rotation matrix of `rotation`
whose row `i` is then multiplied by component `i` of `scale`
(`result.m[i][j] *= scale.<i>` in the source) and whose last column is set
to `translation`. -/
def Matrix4.trs (translation : Vector3 α) (rotation : Quaternion α)
    (scale : Vector3 α) : Matrix4 α :=
  let r := Matrix4.fromQuaternion rotation
  { r with
    m00 := r.m00 * scale.x, m01 := r.m01 * scale.x, m02 := r.m02 * scale.x
    m10 := r.m10 * scale.y, m11 := r.m11 * scale.y, m12 := r.m12 * scale.y
    m20 := r.m20 * scale.z, m21 := r.m21 * scale.z, m22 := r.m22 * scale.z
    m03 := translation.x, m13 := translation.y, m23 := translation.z }

/-- Determinant by the 2x2-subdeterminant cofactor expansion
(`Matrix4.determinant`). -/
def Matrix4.determinant (a : Matrix4 α) : α :=
  let s0 := a.m00 * a.m11 - a.m10 * a.m01
  let s1 := a.m00 * a.m12 - a.m10 * a.m02
  let s2 := a.m00 * a.m13 - a.m10 * a.m03
  let s3 := a.m01 * a.m12 - a.m11 * a.m02
  let s4 := a.m01 * a.m13 - a.m11 * a.m03
  let s5 := a.m02 * a.m13 - a.m12 * a.m03
  let c5 := a.m22 * a.m33 - a.m32 * a.m23
  let c4 := a.m21 * a.m33 - a.m31 * a.m23
  let c3 := a.m21 * a.m32 - a.m31 * a.m22
  let c2 := a.m20 * a.m33 - a.m30 * a.m23
  let c1 := a.m20 * a.m32 - a.m30 * a.m22
  let c0 := a.m20 * a.m31 - a.m30 * a.m21
  s0 * c5 - s1 * c4 + s2 * c3 + s3 * c2 - s4 * c1 + s5 * c0

/-- Matrix inverse (`Matrix4.inverse`): `none` when `abs(det) < EPSILON`,
otherwise the adjugate scaled by `1/det`, entries written exactly as in the
source. -/
def Matrix4.inverse (a : Matrix4 α) : Option (Matrix4 α) :=
  let s0 := a.m00 * a.m11 - a.m10 * a.m01
  let s1 := a.m00 * a.m12 - a.m10 * a.m02
  let s2 := a.m00 * a.m13 - a.m10 * a.m03
  let s3 := a.m01 * a.m12 - a.m11 * a.m02
  let s4 := a.m01 * a.m13 - a.m11 * a.m03
  let s5 := a.m02 * a.m13 - a.m12 * a.m03
  let c5 := a.m22 * a.m33 - a.m32 * a.m23
  let c4 := a.m21 * a.m33 - a.m31 * a.m23
  let c3 := a.m21 * a.m32 - a.m31 * a.m22
  let c2 := a.m20 * a.m33 - a.m30 * a.m23
  let c1 := a.m20 * a.m32 - a.m30 * a.m22
  let c0 := a.m20 * a.m31 - a.m30 * a.m21
  let det := s0 * c5 - s1 * c4 + s2 * c3 + s3 * c2 - s4 * c1 + s5 * c0
  if |det| < EPSILON α then none
  else
    let invDet := 1 / det
    some
      ⟨(a.m11 * c5 - a.m12 * c4 + a.m13 * c3) * invDet,
       (-a.m01 * c5 + a.m02 * c4 - a.m03 * c3) * invDet,
       (a.m31 * s5 - a.m32 * s4 + a.m33 * s3) * invDet,
       (-a.m21 * s5 + a.m22 * s4 - a.m23 * s3) * invDet,
       (-a.m10 * c5 + a.m12 * c2 - a.m13 * c1) * invDet,
       (a.m00 * c5 - a.m02 * c2 + a.m03 * c1) * invDet,
       (-a.m30 * s5 + a.m32 * s2 - a.m33 * s1) * invDet,
       (a.m20 * s5 - a.m22 * s2 + a.m23 * s1) * invDet,
       (a.m10 * c4 - a.m11 * c2 + a.m13 * c0) * invDet,
       (-a.m00 * c4 + a.m01 * c2 - a.m03 * c0) * invDet,
       (a.m30 * s4 - a.m31 * s2 + a.m33 * s0) * invDet,
       (-a.m20 * s4 + a.m21 * s2 - a.m23 * s0) * invDet,
       (-a.m10 * c3 + a.m11 * c1 - a.m12 * c0) * invDet,
       (a.m00 * c3 - a.m01 * c1 + a.m02 * c0) * invDet,
       (-a.m30 * s3 + a.m31 * s1 - a.m32 * s0) * invDet,
       (a.m20 * s3 - a.m21 * s1 + a.m22 * s0) * invDet⟩

/-- Projective point transform with perspective divide
(`Matrix4.transform_point`): the homogeneous `w` is replaced by `1` when
`abs(w) < EPSILON`. -/
def Matrix4.transformPoint (a : Matrix4 α) (v : Vector3 α) : Vector3 α :=
  let w0 := a.m30 * v.x + a.m31 * v.y + a.m32 * v.z + a.m33
  let w := if |w0| < EPSILON α then 1 else w0
  ⟨(a.m00 * v.x + a.m01 * v.y + a.m02 * v.z + a.m03) / w,
   (a.m10 * v.x + a.m11 * v.y + a.m12 * v.z + a.m13) / w,
   (a.m20 * v.x + a.m21 * v.y + a.m22 * v.z + a.m23) / w⟩

/-- Entrywise closeness of two matrices, the "per-element tolerance" of the
specification and of claim C4. -/
def Matrix4.approxEq (a b : Matrix4 α) (tol : α) : Prop :=
  |a.m00 - b.m00| ≤ tol ∧ |a.m01 - b.m01| ≤ tol ∧ |a.m02 - b.m02| ≤ tol ∧
  |a.m03 - b.m03| ≤ tol ∧ |a.m10 - b.m10| ≤ tol ∧ |a.m11 - b.m11| ≤ tol ∧
  |a.m12 - b.m12| ≤ tol ∧ |a.m13 - b.m13| ≤ tol ∧ |a.m20 - b.m20| ≤ tol ∧
  |a.m21 - b.m21| ≤ tol ∧ |a.m22 - b.m22| ≤ tol ∧ |a.m23 - b.m23| ≤ tol ∧
  |a.m30 - b.m30| ≤ tol ∧ |a.m31 - b.m31| ≤ tol ∧ |a.m32 - b.m32| ≤ tol ∧
  |a.m33 - b.m33| ≤ tol

/-- Determinant is nonzero whenever its absolute value exceeds `EPSILON`. -/
theorem det_ne_zero_of_eps_lt {α : Type} [LinearOrderedField α] (M : Matrix4 α)
    (h : EPSILON α < |M.determinant|) : M.determinant ≠ 0 := by
  intro h0
  rw [h0, abs_zero] at h
  have : (0 : α) < EPSILON α := by
    simp only [EPSILON]
    positivity
  linarith

set_option maxHeartbeats 4000000 in
/-- When `inverse` succeeds, the product with the original matrix is exactly
the identity matrix (exact field arithmetic). -/
theorem Matrix4.mul_inverse_eq_identity {α : Type} [LinearOrderedField α]
    (M N : Matrix4 α) (hd : M.determinant ≠ 0) (hN : M.inverse = some N) :
    M.mul N = Matrix4.identity := by
  simp only [Matrix4.determinant] at hd
  simp only [Matrix4.inverse] at hN
  split at hN
  · exact absurd hN (by simp)
  · obtain rfl := (Option.some.injEq _ _).mp hN
    simp only [Matrix4.mul, Matrix4.identity, Matrix4.mk.injEq]
    refine ⟨?_, ?_, ?_, ?_, ?_, ?_, ?_, ?_, ?_, ?_, ?_, ?_, ?_, ?_, ?_, ?_⟩ <;>
      field_simp <;> ring

/-- Claim C4: `Matrix4.inverse` returns the "no inverse" signal exactly when
the absolute determinant is below `EPSILON = 1e-10`, and whenever the
absolute determinant exceeds `EPSILON` the product of the matrix with its
inverse is the identity within per-element tolerance `1e-6` (here it is in
fact exact). -/
theorem inverse_spec {α : Type} [LinearOrderedField α] (M : Matrix4 α) :
    (M.inverse = none ↔ |M.determinant| < EPSILON α) ∧
    (EPSILON α < |M.determinant| →
      ∀ N, M.inverse = some N →
        (M.mul N).approxEq Matrix4.identity (1 / 10 ^ 6)) := by
  constructor
  · simp only [Matrix4.inverse, Matrix4.determinant]
    split_ifs with h
    · simpa using h
    · simpa using h
  · intro h N hN
    have := Matrix4.mul_inverse_eq_identity M N (det_ne_zero_of_eps_lt M h) hN
    rw [this]
    simp only [Matrix4.approxEq, sub_self, abs_zero]
    norm_num

/-- Witness for C4 at the concrete rational identity matrix. -/
theorem inverse_spec_witness :
    (EPSILON ℚ < |Matrix4.determinant (Matrix4.identity : Matrix4 ℚ)| ∧
     Matrix4.inverse (Matrix4.identity : Matrix4 ℚ) = some Matrix4.identity) ∧
    Matrix4.approxEq
      (Matrix4.mul (Matrix4.identity : Matrix4 ℚ) Matrix4.identity)
      Matrix4.identity (1 / 10 ^ 6) :=
  ⟨⟨by norm_num [EPSILON, Matrix4.determinant, Matrix4.identity],
    by norm_num [EPSILON, Matrix4.inverse, Matrix4.identity]⟩,
   (inverse_spec (Matrix4.identity : Matrix4 ℚ)).2
     (by norm_num [EPSILON, Matrix4.determinant, Matrix4.identity])
     Matrix4.identity
     (by norm_num [EPSILON, Matrix4.inverse, Matrix4.identity])⟩

/-- An RGB triple as passed around by the Python code. -/
abbrev Color := Int × Int × Int

/-- Camera state (`Camera` from transform.py): the owned root `Transform`
(`pos`/`rot`/`scl`) plus the projection parameters.  `projectionDirty` is
the `_projection_dirty` flag set by every parameter setter. -/
structure Camera (α : Type) where
  pos : Vector3 α
  rot : Quaternion α
  scl : Vector3 α
  fov : α
  aspect : α
  near : α
  far : α
  orthoSize : α
  isOrtho : Bool
  projectionDirty : Bool
  deriving DecidableEq

/-- Aspect setter (`Camera.aspect`): `max(0.01, value)` and mark the
projection dirty. -/
def Camera.setAspect (c : Camera α) (v : α) : Camera α :=
  { c with aspect := max (1 / 100) v, projectionDirty := true }

/-- Near-clip setter (`Camera.near_clip`): `max(0.001, value)`. -/
def Camera.setNearClip (c : Camera α) (v : α) : Camera α :=
  { c with near := max (1 / 1000) v, projectionDirty := true }

/-- Far-clip setter (`Camera.far_clip`): `max(self._near + 0.01, value)`. -/
def Camera.setFarClip (c : Camera α) (v : α) : Camera α :=
  { c with far := max (c.near + 1 / 100) v, projectionDirty := true }

/-- The three per-cell grids of `WireframeRenderer`, each indexed `[y][x]`
as in the Python lists; a depth of `none` models the `float('inf')` that
`clear` stores. -/
structure Bufs (α : Type) where
  char : ℤ → ℤ → Char
  depth : ℤ → ℤ → Option α
  color : ℤ → ℤ → Option Color

/-- Strict "less than the stored depth" against an `inf`-capable cell, the
comparison `depth < self._depth_buffer[y0][x0]` of `_draw_edge`. -/
def dltB (d : α) : Option α → Bool
  | none => true
  | some v => decide (d < v)

/-- Non-strict "at most the stored depth", the comparison
`depth <= self._depth_buffer[y][x]` of `set_char`. -/
def dleB (d : α) : Option α → Bool
  | none => true
  | some v => decide (d ≤ v)

/-- Write one cell of all three grids, as the three consecutive buffer
assignments of `_draw_edge` / `set_char` do. -/
def Bufs.write (b : Bufs α) (x y : ℤ) (c : Char) (d : Option α)
    (col : Option Color) : Bufs α :=
  ⟨fun Y X => if Y = y ∧ X = x then c else b.char Y X,
   fun Y X => if Y = y ∧ X = x then d else b.depth Y X,
   fun Y X => if Y = y ∧ X = x then col else b.color Y X⟩

/-- Write only the character and color grids, as `draw_line` and
`draw_text` do (the depth grid is untouched). -/
def Bufs.writeCC (b : Bufs α) (x y : ℤ) (c : Char) (col : Option Color) : Bufs α :=
  ⟨fun Y X => if Y = y ∧ X = x then c else b.char Y X,
   b.depth,
   fun Y X => if Y = y ∧ X = x then col else b.color Y X⟩

/-- The glyph table `EDGE_CHARS` of the renderer (only the entries the
drawing path reads). -/
structure EdgeChars where
  horizontal : Char
  vertical : Char
  diagonalUp : Char
  diagonalDown : Char
  deriving DecidableEq

/-- Default glyphs from `WireframeRenderer.EDGE_CHARS`. -/
def EdgeChars.std : EdgeChars := ⟨'─', '│', '╱', '╲'⟩

/-- Buffers as produced by `WireframeRenderer.clear(char, color)`: every
character cell `char`, every depth cell `inf`, every color cell `color`. -/
def clearBufs (α : Type) (ch : Char) (col : Option Color) : Bufs α :=
  ⟨fun _ _ => ch, fun _ _ => none, fun _ _ => col⟩

/-- The renderer state (`WireframeRenderer`): dimensions, the three grids,
the optional attached camera and the depth-testing flag. -/
structure Renderer (α : Type) where
  width : ℤ
  height : ℤ
  bufs : Bufs α
  camera : Option (Camera α)
  depthTesting : Bool
  edgeChars : EdgeChars

/-- The renderer `clear` call. -/
def Renderer.clear (r : Renderer α) (ch : Char) (col : Option Color) : Renderer α :=
  { r with bufs := clearBufs α ch col }

/-- The renderer `resize(width, height)` call: store the new dimensions and
rebuild the buffers via `clear()`; nothing else is touched. -/
def Renderer.resize (r : Renderer α) (w h : ℤ) : Renderer α :=
  { r with width := w, height := h, bufs := clearBufs α ' ' none }

/-- The renderer `set_camera(camera)` call: attach the camera and assign
its aspect to `self.width / (self.height * 2.0)`. -/
def Renderer.setCamera (r : Renderer α) (c : Camera α) : Renderer α :=
  { r with camera := some (c.setAspect ((r.width : α) / ((r.height : α) * 2))) }

/-- Python `int()` truncation toward zero applied to a field element. -/
def pyInt [FloorRing α] (a : α) : ℤ := if a < 0 then -⌊-a⌋ else ⌊a⌋

/-- Slope-based glyph choice (`WireframeRenderer._get_edge_char`). -/
def getEdgeChar (α : Type) [LinearOrderedField α] (ec : EdgeChars)
    (x0 y0 x1 y1 dx dy : ℤ) : Char :=
  if dx = 0 then ec.vertical
  else if dy = 0 then ec.horizontal
  else
    let slope : α := (dy : α) / (dx : α)
    if slope < 1 / 2 then ec.horizontal
    else if slope < 2 then
      if (x0 < x1 ∧ y1 < y0) ∨ (x1 < x0 ∧ y0 < y1) then ec.diagonalUp
      else ec.diagonalDown
    else ec.vertical

/-- A projected vertex as produced by `project_vertex`. -/
structure ProjectedVertex (α : Type) where
  screenX : α
  screenY : α
  depth : α

/-- A projected edge as consumed by `_draw_edge`. -/
structure ProjectedEdge (α : Type) where
  v1 : ProjectedVertex α
  v2 : ProjectedVertex α
  color : Color
  depth : α
  thickness : α
  style : String

/-- The Bresenham loop body of `_draw_edge`, one fuel unit per iteration of
`while step < max_steps` (the fuel is initialised to `max_steps`, so the
model runs exactly the iterations the Python loop runs).  At each in-bounds
pixel the depth is interpolated by `lerp(v1.depth, v2.depth, step/max_steps)`
and the cell is written only when depth testing is disabled or the new depth
is strictly below the stored one. -/
def drawEdgeGo (W H : ℤ) (testing : Bool) (ec : EdgeChars) (col : Color)
    (d1 d2 : α) (x1 y1 dx dy sx sy maxSteps : ℤ) :
    Nat → ℤ → ℤ → ℤ → ℤ → Bufs α → Bufs α
  | 0, _, _, _, _, b => b
  | fuel + 1, x0, y0, err, step, b =>
    let b' :=
      if 0 ≤ x0 ∧ x0 < W ∧ 0 ≤ y0 ∧ y0 < H then
        let t : α := if 0 < maxSteps then (step : α) / (maxSteps : α) else 0
        let d := lerpF d1 d2 t
        if testing = false ∨ dltB d (b.depth y0 x0) = true then
          b.write x0 y0 (getEdgeChar α ec x0 y0 x1 y1 dx dy) (some d) (some col)
        else b
      else b
    if x0 = x1 ∧ y0 = y1 then b'
    else
      let e2 := 2 * err
      let err' := if -dy < e2 then err - dy else err
      let x0' := if -dy < e2 then x0 + sx else x0
      let err'' := if e2 < dx then err' + dx else err'
      let y0' := if e2 < dx then y0 + sy else y0
      drawEdgeGo W H testing ec col d1 d2 x1 y1 dx dy sx sy maxSteps
        fuel x0' y0' err'' (step + 1) b'

/-- The renderer `_draw_edge(edge)` call.  The `total_dist` square root of
the source is computed but never read afterwards, so it has no counterpart
here. -/
def Renderer.drawEdge [FloorRing α] (r : Renderer α) (e : ProjectedEdge α) : Renderer α :=
  let x0 := pyInt e.v1.screenX
  let y0 := pyInt e.v1.screenY
  let x1 := pyInt e.v2.screenX
  let y1 := pyInt e.v2.screenY
  let dx := |x1 - x0|
  let dy := |y1 - y0|
  let sx : ℤ := if x0 < x1 then 1 else -1
  let sy : ℤ := if y0 < y1 then 1 else -1
  let err := dx - dy
  let maxSteps := max dx dy + 1
  { r with
    bufs := drawEdgeGo r.width r.height r.depthTesting r.edgeChars e.color
      e.v1.depth e.v2.depth x1 y1 dx dy sx sy maxSteps maxSteps.toNat
      x0 y0 err 0 r.bufs }

/-- The interpolated depths with which the Bresenham walk of `_draw_edge`
visits the single cell `(x, y)` while it is in bounds; same control flow as
`drawEdgeGo`, independent of the buffers. -/
def edgeVisitGo (W H : ℤ) (d1 d2 : α) (x1 y1 dx dy sx sy maxSteps x y : ℤ) :
    Nat → ℤ → ℤ → ℤ → ℤ → List α
  | 0, _, _, _, _ => []
  | fuel + 1, x0, y0, err, step =>
    let here : List α :=
      if (0 ≤ x0 ∧ x0 < W ∧ 0 ≤ y0 ∧ y0 < H) ∧ x0 = x ∧ y0 = y then
        [lerpF d1 d2 (if 0 < maxSteps then (step : α) / (maxSteps : α) else 0)]
      else []
    if x0 = x1 ∧ y0 = y1 then here
    else
      let e2 := 2 * err
      let err' := if -dy < e2 then err - dy else err
      let x0' := if -dy < e2 then x0 + sx else x0
      let err'' := if e2 < dx then err' + dx else err'
      let y0' := if e2 < dx then y0 + sy else y0
      here ++ edgeVisitGo W H d1 d2 x1 y1 dx dy sx sy maxSteps x y
        fuel x0' y0' err'' (step + 1)

/-- Depths with which `_draw_edge(e)` visits cell `(x, y)` on a `W × H`
renderer. -/
def edgeVisitDepths [FloorRing α] (W H : ℤ) (e : ProjectedEdge α) (x y : ℤ) : List α :=
  let x0 := pyInt e.v1.screenX
  let y0 := pyInt e.v1.screenY
  let x1 := pyInt e.v2.screenX
  let y1 := pyInt e.v2.screenY
  let dx := |x1 - x0|
  let dy := |y1 - y0|
  let sx : ℤ := if x0 < x1 then 1 else -1
  let sy : ℤ := if y0 < y1 then 1 else -1
  let err := dx - dy
  let maxSteps := max dx dy + 1
  edgeVisitGo W H e.v1.depth e.v2.depth x1 y1 dx dy sx sy maxSteps x y
    maxSteps.toNat x0 y0 err 0

/-- Effect of one visiting depth on the `(depth, color)` state of a single
cell under `_draw_edge`'s write rule. -/
def cellStep (testing : Bool) (col : Color) (s : Option α × Option Color)
    (d : α) : Option α × Option Color :=
  if testing = false ∨ dltB d s.1 = true then (some d, some col) else s

theorem Bufs.write_depth (b : Bufs α) (x y : ℤ) (c : Char) (d : Option α)
    (col : Option Color) (Y X : ℤ) :
    (b.write x y c d col).depth Y X = if Y = y ∧ X = x then d else b.depth Y X := rfl

theorem Bufs.write_color (b : Bufs α) (x y : ℤ) (c : Char) (d : Option α)
    (col : Option Color) (Y X : ℤ) :
    (b.write x y c d col).color Y X = if Y = y ∧ X = x then col else b.color Y X := rfl

/-- One loop iteration of `_draw_edge`, projected to the `(depth, color)`
state of the single cell `(x, y)`, acts like folding the list of depths
with which this iteration visits that cell. -/
theorem drawEdge_cell_one (b : Bufs α) (testing : Bool) (col : Color)
    (ch : Char) (dval : α) (x0 y0 x y W H : ℤ) :
    (((if 0 ≤ x0 ∧ x0 < W ∧ 0 ≤ y0 ∧ y0 < H then
        (if testing = false ∨ dltB dval (b.depth y0 x0) = true then
          b.write x0 y0 ch (some dval) (some col)
        else b)
      else b) : Bufs α).depth y x,
     ((if 0 ≤ x0 ∧ x0 < W ∧ 0 ≤ y0 ∧ y0 < H then
        (if testing = false ∨ dltB dval (b.depth y0 x0) = true then
          b.write x0 y0 ch (some dval) (some col)
        else b)
      else b) : Bufs α).color y x) =
    List.foldl (cellStep testing col) (b.depth y x, b.color y x)
      (if (0 ≤ x0 ∧ x0 < W ∧ 0 ≤ y0 ∧ y0 < H) ∧ x0 = x ∧ y0 = y then [dval]
       else []) := by
  by_cases hin : 0 ≤ x0 ∧ x0 < W ∧ 0 ≤ y0 ∧ y0 < H
  · by_cases hat : x0 = x ∧ y0 = y
    · obtain ⟨hx, hy⟩ := hat
      subst hx
      subst hy
      simp only [hin, true_and, and_self, if_pos, List.foldl_cons, List.foldl_nil,
        cellStep]
      by_cases hw : testing = false ∨ dltB dval (b.depth y0 x0) = true
      · simp [hw, Bufs.write_depth, Bufs.write_color]
      · simp [hw]
    · have hat' : ¬ ((0 ≤ x0 ∧ x0 < W ∧ 0 ≤ y0 ∧ y0 < H) ∧ x0 = x ∧ y0 = y) := by
        intro h
        exact hat h.2
      simp only [if_pos hin, if_neg hat', List.foldl_nil]
      have hcell : ¬ (y = y0 ∧ x = x0) := by
        intro h
        exact hat ⟨h.2.symm, h.1.symm⟩
      by_cases hw : testing = false ∨ dltB dval (b.depth y0 x0) = true
      · simp [hw, Bufs.write_depth, Bufs.write_color, hcell]
      · simp [hw]
  · have hat' : ¬ ((0 ≤ x0 ∧ x0 < W ∧ 0 ≤ y0 ∧ y0 < H) ∧ x0 = x ∧ y0 = y) := by
      intro h
      exact hin h.1
    simp [if_neg hin, if_neg hat']

/-- The full `_draw_edge` Bresenham loop, projected to one cell, is the fold
of its visiting depths at that cell. -/
theorem drawEdgeGo_cell (W H : ℤ) (testing : Bool) (ec : EdgeChars) (col : Color)
    (d1 d2 : α) (x1 y1 dx dy sx sy maxSteps x y : ℤ) :
    ∀ (fuel : Nat) (x0 y0 err step : ℤ) (b : Bufs α),
      ((drawEdgeGo W H testing ec col d1 d2 x1 y1 dx dy sx sy maxSteps
          fuel x0 y0 err step b).depth y x,
       (drawEdgeGo W H testing ec col d1 d2 x1 y1 dx dy sx sy maxSteps
          fuel x0 y0 err step b).color y x) =
      List.foldl (cellStep testing col) (b.depth y x, b.color y x)
        (edgeVisitGo W H d1 d2 x1 y1 dx dy sx sy maxSteps x y
          fuel x0 y0 err step) := by
  intro fuel
  induction fuel with
  | zero =>
    intro x0 y0 err step b
    simp [drawEdgeGo, edgeVisitGo]
  | succ n ih =>
    intro x0 y0 err step b
    simp only [drawEdgeGo, edgeVisitGo]
    by_cases hb : x0 = x1 ∧ y0 = y1
    · simp only [if_pos hb]
      exact drawEdge_cell_one b testing col _ _ x0 y0 x y W H
    · simp only [if_neg hb, List.foldl_append, ih]
      congr 1
      exact drawEdge_cell_one b testing col _ _ x0 y0 x y W H

/-- Cell-level description of `_draw_edge`: the new depth and color of any
cell are obtained by folding the visiting depths over the old state. -/
theorem drawEdge_cell [FloorRing α] (r : Renderer α) (e : ProjectedEdge α) (x y : ℤ) :
    ((r.drawEdge e).bufs.depth y x, (r.drawEdge e).bufs.color y x) =
    List.foldl (cellStep r.depthTesting e.color)
      (r.bufs.depth y x, r.bufs.color y x)
      (edgeVisitDepths r.width r.height e x y) := by
  simp only [Renderer.drawEdge, edgeVisitDepths]
  exact drawEdgeGo_cell _ _ _ _ _ _ _ _ _ _ _ _ _ _ _ _ _ _ _ _ _ _

/-- Folding visits that all fail the strict depth test leaves the cell
state unchanged. -/
theorem foldl_cellStep_no_write (col : Color) :
    ∀ (L : List α) (s : Option α × Option Color),
      (∀ d ∈ L, dltB d s.1 = false) →
      List.foldl (cellStep true col) s L = s := by
  intro L
  induction L with
  | nil => intro s _; rfl
  | cons d L ih =>
    intro s h
    have hd : dltB d s.1 = false := h d (List.mem_cons_self d L)
    have hstep : cellStep true col s d = s := by
      simp [cellStep, hd]
    rw [List.foldl_cons, hstep]
    exact ih s fun a ha => h a (List.mem_cons_of_mem d ha)

/-- Folding a nonempty list of identical visiting depths that pass the
strict depth test stores that depth and the drawn color. -/
theorem foldl_cellStep_const_write (col : Color) (k : α) :
    ∀ (L : List α) (s : Option α × Option Color),
      (∀ d ∈ L, d = k) → L ≠ [] → dltB k s.1 = true →
      List.foldl (cellStep true col) s L = (some k, some col) := by
  intro L
  induction L with
  | nil => intro s _ hne _; exact absurd rfl hne
  | cons d L ih =>
    intro s h _ hk
    have hd : d = k := h d (List.mem_cons_self d L)
    have hstep : cellStep true col s d = (some k, some col) := by
      rw [hd]
      simp [cellStep, hk]
    rw [List.foldl_cons, hstep]
    apply foldl_cellStep_no_write
    intro a ha
    have ha' : a = k := h a (List.mem_cons_of_mem d ha)
    rw [ha']
    simp [dltB]

/-- Projection facts: `_draw_edge` only rewrites the grids. -/
theorem drawEdge_width [FloorRing α] (r : Renderer α) (e : ProjectedEdge α) :
    (r.drawEdge e).width = r.width := rfl

theorem drawEdge_height [FloorRing α] (r : Renderer α) (e : ProjectedEdge α) :
    (r.drawEdge e).height = r.height := rfl

theorem drawEdge_testing [FloorRing α] (r : Renderer α) (e : ProjectedEdge α) :
    (r.drawEdge e).depthTesting = r.depthTesting := rfl

/-- Claim C2: with depth testing enabled, if on a renderer whose cell
`(x, y)` is still cleared (stored depth `inf`) two projected edges are
drawn, one visiting that pixel with interpolated depth `3.0` throughout and
the other with `7.0`, then after both draws the pixel's color is the
depth-3 edge's color in either draw order, because `_draw_edge` writes a
pixel only when depth testing is disabled or the new interpolated depth is
strictly below the stored depth. -/
theorem drawEdge_depth_order_independent [FloorRing α] (r : Renderer α)
    (e1 e2 : ProjectedEdge α) (x y : ℤ)
    (ht : r.depthTesting = true)
    (hc : r.bufs.depth y x = none)
    (h1 : ∀ d ∈ edgeVisitDepths r.width r.height e1 x y, d = (3 : α))
    (h1ne : edgeVisitDepths r.width r.height e1 x y ≠ [])
    (h2 : ∀ d ∈ edgeVisitDepths r.width r.height e2 x y, d = (7 : α))
    (h2ne : edgeVisitDepths r.width r.height e2 x y ≠ []) :
    ((r.drawEdge e1).drawEdge e2).bufs.color y x = some e1.color ∧
    ((r.drawEdge e2).drawEdge e1).bufs.color y x = some e1.color := by
  have h37 : dltB (3 : α) (some (7 : α)) = true := by
    simp only [dltB, decide_eq_true_eq]
    norm_num
  have h73 : dltB (7 : α) (some (3 : α)) = false := by
    simp only [dltB, decide_eq_false_iff_not]
    norm_num
  constructor
  · have c1 := drawEdge_cell r e1 x y
    rw [ht, hc] at c1
    have hw1 : List.foldl (cellStep true e1.color)
        ((none : Option α), r.bufs.color y x)
        (edgeVisitDepths r.width r.height e1 x y) = (some 3, some e1.color) :=
      foldl_cellStep_const_write e1.color 3 _ _ h1 h1ne rfl
    rw [hw1, Prod.mk.injEq] at c1
    obtain ⟨hd1, hcol1⟩ := c1
    have c2 := drawEdge_cell (r.drawEdge e1) e2 x y
    rw [drawEdge_testing, drawEdge_width, drawEdge_height, ht, hd1, hcol1] at c2
    have hw2 : List.foldl (cellStep true e2.color)
        (some (3 : α), some e1.color)
        (edgeVisitDepths r.width r.height e2 x y) = (some 3, some e1.color) :=
      foldl_cellStep_no_write e2.color _ _ fun d hd => by
        rw [h2 d hd]
        exact h73
    rw [hw2, Prod.mk.injEq] at c2
    exact c2.2
  · have c1 := drawEdge_cell r e2 x y
    rw [ht, hc] at c1
    have hw1 : List.foldl (cellStep true e2.color)
        ((none : Option α), r.bufs.color y x)
        (edgeVisitDepths r.width r.height e2 x y) = (some 7, some e2.color) :=
      foldl_cellStep_const_write e2.color 7 _ _ h2 h2ne rfl
    rw [hw1, Prod.mk.injEq] at c1
    obtain ⟨hd1, hcol1⟩ := c1
    have c2 := drawEdge_cell (r.drawEdge e2) e1 x y
    rw [drawEdge_testing, drawEdge_width, drawEdge_height, ht, hd1, hcol1] at c2
    have hw2 : List.foldl (cellStep true e1.color)
        (some (7 : α), some e2.color)
        (edgeVisitDepths r.width r.height e1 x y) = (some 3, some e1.color) :=
      foldl_cellStep_const_write e1.color 3 _ _ h1 h1ne h37
    rw [hw2, Prod.mk.injEq] at c2
    exact c2.2

/-- A cleared 10 by 10 renderer over the rationals, used by witnesses. -/
def rendererW : Renderer ℚ := ⟨10, 10, clearBufs ℚ ' ' none, none, true, EdgeChars.std⟩

/-- One-pixel edge at screen cell `(2, 2)` with constant depth 3. -/
def edgeW3 : ProjectedEdge ℚ := ⟨⟨2, 2, 3⟩, ⟨2, 2, 3⟩, (255, 0, 0), 3, 1, "solid"⟩

/-- One-pixel edge at screen cell `(2, 2)` with constant depth 7. -/
def edgeW7 : ProjectedEdge ℚ := ⟨⟨2, 2, 7⟩, ⟨2, 2, 7⟩, (0, 255, 0), 7, 1, "solid"⟩

theorem edgeW3_visits : edgeVisitDepths rendererW.width rendererW.height edgeW3 2 2 = [(3 : ℚ)] := by
  norm_num [edgeVisitDepths, edgeVisitGo, pyInt, lerpF, edgeW3, rendererW]

theorem edgeW7_visits : edgeVisitDepths rendererW.width rendererW.height edgeW7 2 2 = [(7 : ℚ)] := by
  norm_num [edgeVisitDepths, edgeVisitGo, pyInt, lerpF, edgeW7, rendererW]

/-- Witness for C2 at a concrete rational renderer and two concrete edges. -/
theorem drawEdge_depth_order_independent_witness :
    (edgeVisitDepths rendererW.width rendererW.height edgeW3 2 2 = [(3 : ℚ)] ∧
     edgeVisitDepths rendererW.width rendererW.height edgeW7 2 2 = [(7 : ℚ)]) ∧
    ((rendererW.drawEdge edgeW3).drawEdge edgeW7).bufs.color 2 2 = some edgeW3.color ∧
    ((rendererW.drawEdge edgeW7).drawEdge edgeW3).bufs.color 2 2 = some edgeW3.color :=
  ⟨⟨edgeW3_visits, edgeW7_visits⟩,
   drawEdge_depth_order_independent rendererW edgeW3 edgeW7 2 2 rfl rfl
     (by rw [edgeW3_visits]; intro d hd; simpa using hd)
     (by rw [edgeW3_visits]; simp)
     (by rw [edgeW7_visits]; intro d hd; simpa using hd)
     (by rw [edgeW7_visits]; simp)⟩

/-- The `set_char(x, y, char, color, depth)` call: inside bounds, write all
three grids when depth testing is disabled or `depth <= stored`. -/
def Renderer.setChar (r : Renderer α) (x y : ℤ) (c : Char) (col : Option Color)
    (d : α) : Renderer α :=
  if 0 ≤ x ∧ x < r.width ∧ 0 ≤ y ∧ y < r.height then
    if r.depthTesting = false ∨ dleB d (r.bufs.depth y x) = true then
      { r with bufs := r.bufs.write x y c (some d) col }
    else r
  else r

/-- The `draw_line` Bresenham loop: writes only the character and the color
grid at each in-bounds cell, with no depth comparison and no depth write.
The fuel bounds the `while True` loop of the source, which reaches its
endpoint within `max(dx, dy) + 1 <= dx + dy + 1` iterations. -/
def drawLineGo (W H : ℤ) (ec : EdgeChars) (col : Option Color) (ch : Option Char)
    (x1 y1 dx dy sx sy : ℤ) : Nat → ℤ → ℤ → ℤ → Bufs α → Bufs α
  | 0, _, _, _, b => b
  | fuel + 1, x0, y0, err, b =>
    let b' :=
      if 0 ≤ x0 ∧ x0 < W ∧ 0 ≤ y0 ∧ y0 < H then
        b.writeCC x0 y0
          (match ch with
           | some c => c
           | none => getEdgeChar α ec x0 y0 x1 y1 dx dy) col
      else b
    if x0 = x1 ∧ y0 = y1 then b'
    else
      let e2 := 2 * err
      let err' := if -dy < e2 then err - dy else err
      let x0' := if -dy < e2 then x0 + sx else x0
      let err'' := if e2 < dx then err' + dx else err'
      let y0' := if e2 < dx then y0 + sy else y0
      drawLineGo W H ec col ch x1 y1 dx dy sx sy fuel x0' y0' err'' b'

/-- The `draw_line(x0, y0, x1, y1, color, char)` call. -/
def Renderer.drawLine (r : Renderer α) (x0 y0 x1 y1 : ℤ) (col : Option Color)
    (ch : Option Char) : Renderer α :=
  let dx := |x1 - x0|
  let dy := |y1 - y0|
  let sx : ℤ := if x0 < x1 then 1 else -1
  let sy : ℤ := if y0 < y1 then 1 else -1
  let err := dx - dy
  { r with
    bufs := drawLineGo r.width r.height r.edgeChars col ch x1 y1 dx dy sx sy
      (dx + dy + 1).toNat x0 y0 err r.bufs }

/-- The in-bounds cells visited by the `draw_line` walk, with the same
control flow as `drawLineGo`. -/
def lineTraceGo (W H x1 y1 dx dy sx sy : ℤ) : Nat → ℤ → ℤ → ℤ → List (ℤ × ℤ)
  | 0, _, _, _ => []
  | fuel + 1, x0, y0, err =>
    let here : List (ℤ × ℤ) :=
      if 0 ≤ x0 ∧ x0 < W ∧ 0 ≤ y0 ∧ y0 < H then [(x0, y0)] else []
    if x0 = x1 ∧ y0 = y1 then here
    else
      let e2 := 2 * err
      let err' := if -dy < e2 then err - dy else err
      let x0' := if -dy < e2 then x0 + sx else x0
      let err'' := if e2 < dx then err' + dx else err'
      let y0' := if e2 < dx then y0 + sy else y0
      here ++ lineTraceGo W H x1 y1 dx dy sx sy fuel x0' y0' err''

/-- The in-bounds cells `draw_line(x0, y0, x1, y1, ...)` touches. -/
def Renderer.lineTrace (r : Renderer α) (x0 y0 x1 y1 : ℤ) : List (ℤ × ℤ) :=
  let dx := |x1 - x0|
  let dy := |y1 - y0|
  let sx : ℤ := if x0 < x1 then 1 else -1
  let sy : ℤ := if y0 < y1 then 1 else -1
  let err := dx - dy
  lineTraceGo r.width r.height x1 y1 dx dy sx sy (dx + dy + 1).toNat x0 y0 err

/-- The `draw_text` loop: `for i, char in enumerate(text)`, bounds-checked
unconditional character/color writes at `(x + i, y)`. -/
def drawTextGo (W H y : ℤ) (col : Option Color) : List Char → ℤ → Bufs α → Bufs α
  | [], _, b => b
  | c :: cs, xi, b =>
    let b' := if 0 ≤ xi ∧ xi < W ∧ 0 ≤ y ∧ y < H then b.writeCC xi y c col else b
    drawTextGo W H y col cs (xi + 1) b'

/-- The `draw_text(x, y, text, color)` call. -/
def Renderer.drawText (r : Renderer α) (x y : ℤ) (text : List Char)
    (col : Option Color) : Renderer α :=
  { r with bufs := drawTextGo r.width r.height y col text x r.bufs }

theorem Bufs.writeCC_depth (b : Bufs α) (x y : ℤ) (c : Char) (col : Option Color) :
    (b.writeCC x y c col).depth = b.depth := rfl

/-- The `draw_line` loop never modifies the depth grid. -/
theorem drawLineGo_depth (W H : ℤ) (ec : EdgeChars) (col : Option Color)
    (ch : Option Char) (x1 y1 dx dy sx sy : ℤ) :
    ∀ (fuel : Nat) (x0 y0 err : ℤ) (b : Bufs α),
      (drawLineGo W H ec col ch x1 y1 dx dy sx sy fuel x0 y0 err b).depth = b.depth := by
  intro fuel
  induction fuel with
  | zero => intro x0 y0 err b; rfl
  | succ n ih =>
    intro x0 y0 err b
    simp only [drawLineGo]
    split
    · split <;> rfl
    · rw [ih]
      split <;> rfl

/-- The `draw_text` loop never modifies the depth grid. -/
theorem drawTextGo_depth (W H y : ℤ) (col : Option Color) :
    ∀ (text : List Char) (xi : ℤ) (b : Bufs α),
      (drawTextGo W H y col text xi b).depth = b.depth := by
  intro text
  induction text with
  | nil => intro xi b; rfl
  | cons c cs ih =>
    intro xi b
    simp only [drawTextGo]
    rw [ih]
    split <;> rfl

/-- Any cell on the trace of the `draw_line` walk ends with the call's
color, no matter what the depth buffer holds; and once a cell holds that
color the rest of the walk keeps it. -/
theorem drawLineGo_color (W H : ℤ) (ec : EdgeChars) (col : Option Color)
    (ch : Option Char) (x1 y1 dx dy sx sy : ℤ) (p : ℤ × ℤ) :
    ∀ (fuel : Nat) (x0 y0 err : ℤ) (b : Bufs α),
      (p ∈ lineTraceGo W H x1 y1 dx dy sx sy fuel x0 y0 err ∨
        b.color p.2 p.1 = col) →
      (drawLineGo W H ec col ch x1 y1 dx dy sx sy fuel x0 y0 err b).color p.2 p.1 = col := by
  intro fuel
  induction fuel with
  | zero =>
    intro x0 y0 err b h
    rcases h with h | h
    · simp [lineTraceGo] at h
    · exact h
  | succ n ih =>
    intro x0 y0 err b h
    simp only [drawLineGo]
    simp only [lineTraceGo] at h
    by_cases hin : 0 ≤ x0 ∧ x0 < W ∧ 0 ≤ y0 ∧ y0 < H
    · simp only [if_pos hin] at h ⊢
      by_cases hb : x0 = x1 ∧ y0 = y1
      · simp only [if_pos hb] at h ⊢
        rcases h with h | h
        · simp only [List.mem_singleton] at h
          subst h
          simp [Bufs.writeCC]
        · by_cases hp : p.2 = y0 ∧ p.1 = x0
          · simp [Bufs.writeCC, hp]
          · simp only [Bufs.writeCC]
            simpa [hp] using h
      · simp only [if_neg hb] at h ⊢
        apply ih
        rcases h with h | h
        · rcases List.mem_append.mp h with h | h
          · simp only [List.mem_singleton] at h
            subst h
            right
            simp [Bufs.writeCC]
          · exact Or.inl h
        · right
          by_cases hp : p.2 = y0 ∧ p.1 = x0
          · simp [Bufs.writeCC, hp]
          · simp only [Bufs.writeCC]
            simpa [hp] using h
    · simp only [if_neg hin] at h ⊢
      by_cases hb : x0 = x1 ∧ y0 = y1
      · simp only [if_pos hb] at h ⊢
        rcases h with h | h
        · simp at h
        · exact h
      · simp only [if_neg hb] at h ⊢
        apply ih
        rcases h with h | h
        · exact Or.inl (by simpa using h)
        · exact Or.inr h

/-- Any cell on the trace of the `draw_line` walk ends with the explicitly
given character, no matter what the depth buffer holds. -/
theorem drawLineGo_char (W H : ℤ) (ec : EdgeChars) (col : Option Color)
    (c : Char) (x1 y1 dx dy sx sy : ℤ) (p : ℤ × ℤ) :
    ∀ (fuel : Nat) (x0 y0 err : ℤ) (b : Bufs α),
      (p ∈ lineTraceGo W H x1 y1 dx dy sx sy fuel x0 y0 err ∨
        b.char p.2 p.1 = c) →
      (drawLineGo W H ec col (some c) x1 y1 dx dy sx sy fuel x0 y0 err b).char p.2 p.1 = c := by
  intro fuel
  induction fuel with
  | zero =>
    intro x0 y0 err b h
    rcases h with h | h
    · simp [lineTraceGo] at h
    · exact h
  | succ n ih =>
    intro x0 y0 err b h
    simp only [drawLineGo]
    simp only [lineTraceGo] at h
    by_cases hin : 0 ≤ x0 ∧ x0 < W ∧ 0 ≤ y0 ∧ y0 < H
    · simp only [if_pos hin] at h ⊢
      by_cases hb : x0 = x1 ∧ y0 = y1
      · simp only [if_pos hb] at h ⊢
        rcases h with h | h
        · simp only [List.mem_singleton] at h
          subst h
          simp [Bufs.writeCC]
        · by_cases hp : p.2 = y0 ∧ p.1 = x0
          · simp [Bufs.writeCC, hp]
          · simp only [Bufs.writeCC]
            simpa [hp] using h
      · simp only [if_neg hb] at h ⊢
        apply ih
        rcases h with h | h
        · rcases List.mem_append.mp h with h | h
          · simp only [List.mem_singleton] at h
            subst h
            right
            simp [Bufs.writeCC]
          · exact Or.inl h
        · right
          by_cases hp : p.2 = y0 ∧ p.1 = x0
          · simp [Bufs.writeCC, hp]
          · simp only [Bufs.writeCC]
            simpa [hp] using h
    · simp only [if_neg hin] at h ⊢
      by_cases hb : x0 = x1 ∧ y0 = y1
      · simp only [if_pos hb] at h ⊢
        rcases h with h | h
        · simp at h
        · exact h
      · simp only [if_neg hb] at h ⊢
        apply ih
        rcases h with h | h
        · exact Or.inl (by simpa using h)
        · exact Or.inr h

/-- The `draw_text` loop never touches cells left of its running cursor. -/
theorem drawTextGo_untouched (W H y : ℤ) (col : Option Color) :
    ∀ (text : List Char) (xi : ℤ) (b : Bufs α) (Y X : ℤ), X < xi →
      (drawTextGo W H y col text xi b).char Y X = b.char Y X ∧
      (drawTextGo W H y col text xi b).color Y X = b.color Y X := by
  intro text
  induction text with
  | nil => intro xi b Y X _; exact ⟨rfl, rfl⟩
  | cons c cs ih =>
    intro xi b Y X hX
    simp only [drawTextGo]
    have step := ih (xi + 1) (if 0 ≤ xi ∧ xi < W ∧ 0 ≤ y ∧ y < H then
      b.writeCC xi y c col else b) Y X (by linarith)
    rw [step.1, step.2]
    have hXne : ¬ (Y = y ∧ X = xi) := by
      intro hcon
      exact absurd hcon.2 (ne_of_lt hX)
    constructor
    · split <;> simp [Bufs.writeCC, hXne]
    · split <;> simp [Bufs.writeCC, hXne]

/-- Every in-bounds character of a `draw_text` call is written, with the
call's color, regardless of the depth buffer. -/
theorem drawTextGo_writes (W H y : ℤ) (col : Option Color) :
    ∀ (text : List Char) (xi : ℤ) (b : Bufs α) (i : ℕ) (hi : i < text.length),
      (0 ≤ xi + (i : ℤ) ∧ xi + (i : ℤ) < W ∧ 0 ≤ y ∧ y < H) →
      (drawTextGo W H y col text xi b).char y (xi + (i : ℤ)) = text.get ⟨i, hi⟩ ∧
      (drawTextGo W H y col text xi b).color y (xi + (i : ℤ)) = col := by
  intro text
  induction text with
  | nil => intro xi b i hi _; exact absurd hi (Nat.not_lt_zero i)
  | cons c cs ih =>
    intro xi b i hi hbounds
    match i with
    | 0 =>
      simp only [Nat.cast_zero, add_zero] at hbounds ⊢
      simp only [drawTextGo, if_pos hbounds]
      have step := drawTextGo_untouched W H y col cs (xi + 1)
        ((b.writeCC xi y c col)) y xi (by linarith)
      rw [step.1, step.2]
      simp [Bufs.writeCC]
    | Nat.succ j =>
      have hcast : xi + ((j + 1 : ℕ) : ℤ) = (xi + 1) + (j : ℤ) := by
        push_cast
        ring
      rw [hcast] at hbounds ⊢
      simp only [drawTextGo]
      have hj : j < cs.length := Nat.lt_of_succ_lt_succ hi
      have := ih (xi + 1)
        (if 0 ≤ xi ∧ xi < W ∧ 0 ≤ y ∧ y < H then b.writeCC xi y c col else b)
        j hj hbounds
      exact this

/-- Claim C9: `draw_line` and `draw_text` leave every cell of the depth
buffer unchanged and overwrite the character and color of every in-bounds
pixel they touch without any depth comparison, while `set_char` (with
depth testing on) writes exactly when its depth argument is at most the
stored depth at the cell. -/
theorem overlay_primitives_spec (r : Renderer α) :
    (∀ (x0 y0 x1 y1 : ℤ) (col : Option Color) (ch : Option Char),
      (r.drawLine x0 y0 x1 y1 col ch).bufs.depth = r.bufs.depth) ∧
    (∀ (x y : ℤ) (text : List Char) (col : Option Color),
      (r.drawText x y text col).bufs.depth = r.bufs.depth) ∧
    (∀ (x0 y0 x1 y1 : ℤ) (col : Option Color) (ch : Option Char) (p : ℤ × ℤ),
      p ∈ r.lineTrace x0 y0 x1 y1 →
      (r.drawLine x0 y0 x1 y1 col ch).bufs.color p.2 p.1 = col) ∧
    (∀ (x0 y0 x1 y1 : ℤ) (col : Option Color) (c : Char) (p : ℤ × ℤ),
      p ∈ r.lineTrace x0 y0 x1 y1 →
      (r.drawLine x0 y0 x1 y1 col (some c)).bufs.char p.2 p.1 = c) ∧
    (∀ (x y : ℤ) (text : List Char) (col : Option Color) (i : ℕ)
      (hi : i < text.length),
      (0 ≤ x + (i : ℤ) ∧ x + (i : ℤ) < r.width ∧ 0 ≤ y ∧ y < r.height) →
      (r.drawText x y text col).bufs.char y (x + (i : ℤ)) = text.get ⟨i, hi⟩ ∧
      (r.drawText x y text col).bufs.color y (x + (i : ℤ)) = col) ∧
    (∀ (x y : ℤ) (c : Char) (col : Option Color) (d : α),
      r.depthTesting = true →
      dleB d (r.bufs.depth y x) = false →
      r.setChar x y c col d = r) ∧
    (∀ (x y : ℤ) (c : Char) (col : Option Color) (d : α),
      (0 ≤ x ∧ x < r.width ∧ 0 ≤ y ∧ y < r.height) →
      (r.depthTesting = false ∨ dleB d (r.bufs.depth y x) = true) →
      (r.setChar x y c col d).bufs.char y x = c ∧
      (r.setChar x y c col d).bufs.color y x = col ∧
      (r.setChar x y c col d).bufs.depth y x = some d) := by
  refine ⟨?_, ?_, ?_, ?_, ?_, ?_, ?_⟩
  · intro x0 y0 x1 y1 col ch
    exact drawLineGo_depth r.width r.height r.edgeChars col ch x1 y1
      |x1 - x0| |y1 - y0| (if x0 < x1 then 1 else -1) (if y0 < y1 then 1 else -1)
      (|x1 - x0| + |y1 - y0| + 1).toNat x0 y0 (|x1 - x0| - |y1 - y0|) r.bufs
  · intro x y text col
    exact drawTextGo_depth r.width r.height y col text x r.bufs
  · intro x0 y0 x1 y1 col ch p hp
    exact drawLineGo_color r.width r.height r.edgeChars col ch x1 y1
      |x1 - x0| |y1 - y0| (if x0 < x1 then 1 else -1) (if y0 < y1 then 1 else -1)
      p (|x1 - x0| + |y1 - y0| + 1).toNat x0 y0 (|x1 - x0| - |y1 - y0|) r.bufs
      (Or.inl hp)
  · intro x0 y0 x1 y1 col c p hp
    exact drawLineGo_char r.width r.height r.edgeChars col c x1 y1
      |x1 - x0| |y1 - y0| (if x0 < x1 then 1 else -1) (if y0 < y1 then 1 else -1)
      p (|x1 - x0| + |y1 - y0| + 1).toNat x0 y0 (|x1 - x0| - |y1 - y0|) r.bufs
      (Or.inl hp)
  · intro x y text col i hi hb
    exact drawTextGo_writes _ _ _ _ _ _ _ _ hi hb
  · intro x y c col d htest hle
    simp only [Renderer.setChar, htest, hle]
    split
    · simp
    · rfl
  · intro x y c col d hin hcond
    simp only [Renderer.setChar, if_pos hin, if_pos hcond]
    simp [Bufs.write]

/-- Witness for C9 on the concrete rational renderer: a horizontal line and
a text write leave the depth grid intact and set their cells, a `set_char`
with depth 5 on a cleared cell writes, and a following `set_char` with
depth 9 at the same cell is rejected. -/
theorem overlay_primitives_spec_witness :
    ((rendererW.drawLine 1 1 4 1 (some (9, 9, 9)) (some 'x')).bufs.depth =
      rendererW.bufs.depth) ∧
    ((1, 1) ∈ rendererW.lineTrace 1 1 4 1 ∧
     (rendererW.drawLine 1 1 4 1 (some (9, 9, 9)) (some 'x')).bufs.color 1 1 =
       some (9, 9, 9) ∧
     (rendererW.drawLine 1 1 4 1 (some (9, 9, 9)) (some 'x')).bufs.char 1 1 = 'x') ∧
    ((rendererW.drawText 2 3 ['h', 'i'] (some (7, 7, 7))).bufs.char 3
        (2 + ((1 : ℕ) : ℤ)) = 'i') ∧
    ((rendererW.setChar 1 1 'A' (some (1, 2, 3)) 5).bufs.depth 1 1 = some 5) ∧
    ((rendererW.setChar 1 1 'A' (some (1, 2, 3)) 5).setChar 1 1 'B' none 9 =
      rendererW.setChar 1 1 'A' (some (1, 2, 3)) 5) := by
  have htr : (1, 1) ∈ rendererW.lineTrace 1 1 4 1 := by
    norm_num [Renderer.lineTrace, lineTraceGo, rendererW]
  have hwrote :=
    (overlay_primitives_spec rendererW).2.2.2.2.2.2 1 1 'A' (some (1, 2, 3)) 5
      (by norm_num [rendererW]) (Or.inr rfl)
  have hdep : (rendererW.setChar 1 1 'A' (some (1, 2, 3)) 5).bufs.depth 1 1 =
      some 5 := hwrote.2.2
  refine ⟨(overlay_primitives_spec rendererW).1 1 1 4 1 (some (9, 9, 9)) (some 'x'),
    ⟨htr,
     (overlay_primitives_spec rendererW).2.2.1 1 1 4 1 (some (9, 9, 9))
       (some 'x') (1, 1) htr,
     (overlay_primitives_spec rendererW).2.2.2.1 1 1 4 1 (some (9, 9, 9)) 'x'
       (1, 1) htr⟩,
    ((overlay_primitives_spec rendererW).2.2.2.2.1 2 3 ['h', 'i']
        (some (7, 7, 7)) 1 (by norm_num) (by norm_num [rendererW])).1.trans rfl,
    hdep, ?_⟩
  refine (overlay_primitives_spec
    (rendererW.setChar 1 1 'A' (some (1, 2, 3)) 5)).2.2.2.2.2.1 1 1 'B' none 9
    rfl ?_
  rw [hdep]
  norm_num [dleB]

/-- Claim C8, amended: the attached camera's aspect ratio is set to
`width/(height*2)` (clamped below at `0.01`) by `set_camera`, using the
renderer's dimensions at attach time; `resize(W, H)` rebuilds only the
renderer's own buffers and leaves the attached camera — and hence its
aspect — unchanged. -/
theorem setCamera_aspect_resize_untouched (r : Renderer α) (c : Camera α)
    (w h : ℤ) :
    (r.setCamera c).camera =
      some (c.setAspect ((r.width : α) / ((r.height : α) * 2))) ∧
    ((r.setCamera c).resize w h).camera = (r.setCamera c).camera ∧
    (r.resize w h).camera = r.camera :=
  ⟨rfl, rfl, rfl⟩

/-- A concrete rational camera (fields as built by `Camera.__init__` except
for the irrational default field of view, which plays no role here). -/
def cameraQ : Camera ℚ :=
  ⟨⟨0, 0, 0⟩, ⟨0, 0, 0, 1⟩, ⟨1, 1, 1⟩, 1, 16 / 9, 1 / 10, 1000, 5, false, true⟩

/-- Counterexample to C8 as stated: attach a camera to an 80 by 24
renderer (aspect becomes 80/48 = 5/3), then resize to 100 by 50; the
attached camera's aspect stays 5/3 and is not 100/(50*2) = 1, because
`resize` never touches the camera. -/
theorem resize_aspect_cex :
    ¬ ((((rendererW.setCamera cameraQ).resize 100 50).camera.map Camera.aspect) =
        some ((100 : ℚ) / (50 * 2))) := by
  norm_num [Renderer.resize, Renderer.setCamera, Camera.setAspect, rendererW,
    cameraQ, max_def]

/-- One scene-graph node (`Transform` from transform.py): local TRS data,
parent link, the two cached matrices and their dirty flags.  The children
lists of the source are represented implicitly: `j` is a child of `i`
exactly when `(st j).parent = some i`, which the Python `parent` setter
keeps in sync. -/
structure TNode (α : Type) where
  parent : Option Nat
  pos : Vector3 α
  rot : Quaternion α
  scl : Vector3 α
  localMat : Option (Matrix4 α)
  worldMat : Option (Matrix4 α)
  localDirty : Bool
  worldDirty : Bool

/-- A scene graph: every node id carries a node.  Well-formed states keep
`parent < id` (see `parentDec`), which numbers any finite forest. -/
def TState (α : Type) := Nat → TNode α

/-- The local TRS matrix of a node's current data, what
`Matrix4.trs(self._position, self._rotation, self._scale)` computes. -/
def trsOf (n : TNode α) : Matrix4 α := Matrix4.trs n.pos n.rot n.scl

/-- Update a single node of the state. -/
def upd (st : TState α) (i : Nat) (f : TNode α → TNode α) : TState α :=
  fun j => if j = i then f (st j) else st j

/-- Parent links point to strictly smaller ids, so parent chains terminate. -/
def parentDec (st : TState α) : Prop :=
  ∀ i p, (st i).parent = some p → p < i

/-- The parent chain of node `j` (node, parent, grandparent, ...), with
enough fuel; under `parentDec` fuel `j` suffices. -/
def chainL (st : TState α) : Nat → Nat → List Nat
  | 0, j => [j]
  | f + 1, j =>
    j :: (match (st j).parent with
          | none => []
          | some p => chainL st f p)

/-- The reference value of `world_matrix` at read time: the TRS of the
current local data for a root, `parent.world * local` otherwise
(fuel-bounded recursion up the parent chain). -/
def freshW (st : TState α) : Nat → Nat → Matrix4 α
  | 0, j => trsOf (st j)
  | f + 1, j =>
    match (st j).parent with
    | none => trsOf (st j)
    | some p => (freshW st f p).mul (trsOf (st j))

/-- Reference world matrix of node `i` (fuel `i` is enough when parents
decrease). -/
def freshWAt (st : TState α) (i : Nat) : Matrix4 α := freshW st i i

/-- `Transform._mark_world_dirty` propagated from node `i`: sets the
world-dirty flag on `i` and every descendant of `i`, i.e. on every node
whose parent chain passes through `i`. -/
def markWD (st : TState α) (i : Nat) : TState α :=
  fun j =>
    if i ∈ chainL st j j then { st j with worldDirty := true } else st j

/-- The mutations quantified over by claim C1. -/
inductive Mut (α : Type) where
  | setPos (i : Nat) (v : Vector3 α)
  | setRot (i : Nat) (q : Quaternion α)
  | setScl (i : Nat) (v : Vector3 α)
  | setParent (i : Nat) (p : Option Nat)

/-- Apply one mutation, mirroring the `position`/`rotation`/`scale` and
`parent` setters of `Transform`: the first three store the value, set the
local-dirty flag (`_mark_dirty`) and world-dirty the whole subtree
(`_mark_world_dirty`); re-parenting returns unchanged when the parent is
already `value`, else re-links and world-dirties the subtree.  A new parent
id is required to be smaller than the child id, which keeps the state a
forest under the chosen numbering (the tree assumption of the claim). -/
def applyMut (st : TState α) : Mut α → TState α
  | Mut.setPos i v =>
    markWD (upd st i fun n => { n with pos := v, localDirty := true }) i
  | Mut.setRot i q =>
    markWD (upd st i fun n => { n with rot := q, localDirty := true }) i
  | Mut.setScl i v =>
    markWD (upd st i fun n => { n with scl := v, localDirty := true }) i
  | Mut.setParent i p =>
    if (st i).parent = p then st
    else if (match p with | none => true | some q => decide (q < i)) = true then
      markWD (upd st i fun n => { n with parent := p }) i
    else st

/-- Apply a list of mutations in order. -/
def applyMuts (st : TState α) : List (Mut α) → TState α
  | [] => st
  | m :: ms => applyMuts (applyMut st m) ms

/-- The read of `Transform.local_matrix`: return the cache when it is
clean, else recompute `Matrix4.trs(position, rotation, scale)`, store it
and clear the local-dirty flag. -/
def readLocal (st : TState α) (i : Nat) : Matrix4 α × TState α :=
  match (st i).localDirty, (st i).localMat with
  | false, some l => (l, st)
  | _, _ =>
    let l := trsOf (st i)
    (l, upd st i fun n => { n with localMat := some l, localDirty := false })

/-- Recompute-and-cache for a root node inside the `world_matrix` read:
`self._world_matrix = self.local_matrix.copy()`, then clear the
world-dirty flag. -/
def readWorldRoot (st : TState α) (i : Nat) : Matrix4 α × TState α :=
  let lr := readLocal st i
  (lr.1, upd lr.2 i fun n => { n with worldMat := some lr.1, worldDirty := false })

/-- The read of `Transform.world_matrix`: return the cache when it is
clean; else for a root copy the (freshly read) local matrix, for a child
read the parent's world matrix first and multiply by the own (freshly
read) local matrix; store the result and clear the world-dirty flag.  One
fuel unit is spent per parent hop; fuel `i` suffices under `parentDec`,
and the fuel-exhausted child branch is unreachable then. -/
def readWorld (st : TState α) : Nat → Nat → Matrix4 α × TState α
  | 0, i =>
    match (st i).worldDirty, (st i).worldMat with
    | false, some w => (w, st)
    | _, _ =>
      match (st i).parent with
      | none => readWorldRoot st i
      | some _ => (Matrix4.identity, st)
  | f + 1, i =>
    match (st i).worldDirty, (st i).worldMat with
    | false, some w => (w, st)
    | _, _ =>
      match (st i).parent with
      | none => readWorldRoot st i
      | some p =>
        let pr := readWorld st f p
        let lr := readLocal pr.2 i
        let w := pr.1.mul lr.1
        (w, upd lr.2 i fun n => { n with worldMat := some w, worldDirty := false })

/-- The read of `world_matrix` on node `i` (fuel `i` is enough when
parents decrease). -/
def readWorldAt (st : TState α) (i : Nat) : Matrix4 α × TState α :=
  readWorld st i i

/-- The cache invariant: parents decrease, a clean local cache holds the
TRS of the current local data, and a clean world cache holds the reference
world matrix of the current state. -/
def WFT (st : TState α) : Prop :=
  parentDec st ∧
  (∀ i, (st i).localDirty = false → (st i).localMat = some (trsOf (st i))) ∧
  (∀ i, (st i).worldDirty = false → (st i).worldMat = some (freshWAt st i))

/-- Two states with the same parent links and the same local TRS data
everywhere (flags and caches may differ). -/
def sameGeo (st st' : TState α) : Prop :=
  ∀ j, (st' j).parent = (st j).parent ∧ trsOf (st' j) = trsOf (st j)

theorem sameGeo_refl (st : TState α) : sameGeo st st := fun _ => ⟨rfl, rfl⟩

theorem sameGeo_trans {st st' st'' : TState α} (h1 : sameGeo st st')
    (h2 : sameGeo st' st'') : sameGeo st st'' :=
  fun j => ⟨(h2 j).1.trans (h1 j).1, (h2 j).2.trans (h1 j).2⟩

/-- Parent chains only read parent links. -/
theorem chainL_congr {st st' : TState α}
    (h : ∀ k, (st' k).parent = (st k).parent) :
    ∀ (f j : Nat), chainL st' f j = chainL st f j := by
  intro f
  induction f with
  | zero => intro j; rfl
  | succ n ih =>
    intro j
    simp only [chainL, h j]
    cases (st j).parent with
    | none => rfl
    | some p => simp [ih p]

/-- A node is on its own parent chain. -/
theorem mem_chainL_self (st : TState α) : ∀ (f j : Nat), j ∈ chainL st f j := by
  intro f j
  cases f with
  | zero => simp [chainL]
  | succ n =>
    simp only [chainL]
    exact List.mem_cons_self j _

/-- Under decreasing parents the reference world matrix is independent of
the fuel, as long as the fuel covers the node id. -/
theorem freshW_fuel {st : TState α} (hp : parentDec st) :
    ∀ (j f f' : Nat), j ≤ f → j ≤ f' → freshW st f j = freshW st f' j := by
  intro j
  induction j using Nat.strong_induction_on with
  | _ j ih =>
    intro f f' hf hf'
    cases hj : (st j).parent with
    | none =>
      cases f <;> cases f' <;> simp [freshW, hj]
    | some p =>
      have hpj : p < j := hp j p hj
      match f, f' with
      | f + 1, f' + 1 =>
        simp only [freshW, hj]
        rw [ih p hpj f f' (by omega) (by omega)]
      | 0, _ => omega
      | _ + 1, 0 => omega

/-- The reference world matrix only reads the parent links and the local
TRS data on the parent chain. -/
theorem freshW_congr (st st' : TState α) :
    ∀ (f j : Nat),
      (∀ k ∈ chainL st f j,
        (st' k).parent = (st k).parent ∧ trsOf (st' k) = trsOf (st k)) →
      chainL st' f j = chainL st f j ∧ freshW st' f j = freshW st f j := by
  intro f
  induction f with
  | zero =>
    intro j h
    have hj := h j (by simp [chainL])
    simp [chainL, freshW, hj.2]
  | succ n ih =>
    intro j h
    have hj := h j (mem_chainL_self st (n + 1) j)
    simp only [chainL, freshW, hj.1, hj.2]
    cases hpar : (st j).parent with
    | none => simp [hpar]
    | some p =>
      simp only [hpar]
      have hrec := ih p (fun k hk => h k (by
        simp only [chainL, hpar]
        exact List.mem_cons_of_mem j hk))
      rw [hrec.1, hrec.2]
      exact ⟨rfl, rfl⟩

/-- Geometry-preserving state changes preserve the reference world
matrices and the parent chains. -/
theorem freshW_sameGeo {st st' : TState α} (h : sameGeo st st') :
    ∀ (f j : Nat), chainL st' f j = chainL st f j ∧ freshW st' f j = freshW st f j :=
  fun f j => freshW_congr st st' f j (fun k _ => h k)

theorem freshWAt_sameGeo {st st' : TState α} (h : sameGeo st st') (i : Nat) :
    freshWAt st' i = freshWAt st i :=
  (freshW_sameGeo h i i).2

/-- For a root the reference world matrix is the TRS of the local data. -/
theorem freshWAt_root (st : TState α) (i : Nat) (h : (st i).parent = none) :
    freshWAt st i = trsOf (st i) := by
  cases i with
  | zero => rfl
  | succ k => simp [freshWAt, freshW, h]

/-- For a child the reference world matrix is the parent's reference world
matrix times the own local TRS. -/
theorem freshWAt_child {st : TState α} (hp : parentDec st) (i p : Nat)
    (h : (st i).parent = some p) :
    freshWAt st i = (freshWAt st p).mul (trsOf (st i)) := by
  have hpi : p < i := hp i p h
  match i, hpi with
  | k + 1, _ =>
    simp only [freshWAt, freshW, h]
    rw [freshW_fuel hp p k p (by omega) le_rfl]

/-- Marking a subtree world-dirty after an update of node `i` preserves the
cache invariant, provided parents still decrease and the updated node's
local cache is still consistent when it claims to be clean. -/
theorem WFT_markWD_upd (st : TState α) (h : WFT st) (i : Nat)
    (f : TNode α → TNode α)
    (hpdec : parentDec (upd st i f))
    (hloc : (f (st i)).localDirty = false →
      (f (st i)).localMat = some (trsOf (f (st i)))) :
    WFT (markWD (upd st i f) i) := by
  obtain ⟨hp, hl, hw⟩ := h
  have F1 : ∀ j, (markWD (upd st i f) i j).parent = (upd st i f j).parent := by
    intro j
    simp only [markWD]
    split <;> rfl
  have F2 : ∀ j, j ≠ i → upd st i f j = st j := by
    intro j hj
    simp [upd, hj]
  have F3 : ∀ j, trsOf (markWD (upd st i f) i j) = trsOf (upd st i f j) ∧
      (markWD (upd st i f) i j).localDirty = (upd st i f j).localDirty ∧
      (markWD (upd st i f) i j).localMat = (upd st i f j).localMat ∧
      (markWD (upd st i f) i j).worldMat = (upd st i f j).worldMat := by
    intro j
    simp only [markWD]
    split <;> exact ⟨rfl, rfl, rfl, rfl⟩
  have F4 : ∀ j, (markWD (upd st i f) i j).worldDirty = false →
      i ∉ chainL (upd st i f) j j ∧ (upd st i f j).worldDirty = false := by
    intro j
    simp only [markWD]
    split
    · intro hcon
      exact absurd hcon (by simp)
    · intro hok
      constructor
      · assumption
      · exact hok
  refine ⟨?_, ?_, ?_⟩
  · intro j p hjp
    rw [F1 j] at hjp
    exact hpdec j p hjp
  · intro j hdirty
    rw [(F3 j).2.1] at hdirty
    rw [(F3 j).2.2.1, (F3 j).1]
    by_cases hj : j = i
    · have hji : upd st i f j = f (st i) := by
        simp [upd, hj]
      rw [hji] at hdirty ⊢
      exact hloc hdirty
    · rw [F2 j hj] at hdirty ⊢
      exact hl j hdirty
  · intro j hdirty
    obtain ⟨hnot, h1d⟩ := F4 j hdirty
    have hj : j ≠ i := by
      intro hcon
      subst hcon
      exact hnot (mem_chainL_self _ _ _)
    rw [F2 j hj] at h1d
    rw [(F3 j).2.2.2, F2 j hj]
    rw [hw j h1d]
    have hchain2 : chainL (markWD (upd st i f) i) j j = chainL (upd st i f) j j :=
      chainL_congr F1 j j
    have hcongr := freshW_congr (markWD (upd st i f) i) st j j (by
      intro k hk
      rw [hchain2] at hk
      have hk' : k ≠ i := by
        intro hcon
        subst hcon
        exact hnot hk
      constructor
      · rw [F1 k, F2 k hk']
      · rw [(F3 k).1, F2 k hk'])
    exact congrArg some hcongr.2

/-- Every mutation of claim C1 preserves the cache invariant. -/
theorem WFT_applyMut (st : TState α) (h : WFT st) (m : Mut α) :
    WFT (applyMut st m) := by
  have hp := h.1
  cases m with
  | setPos i v =>
    refine WFT_markWD_upd st h i _ ?_ ?_
    · intro j p hjp
      by_cases hj : j = i
      · rw [show upd st i (fun n => { n with pos := v, localDirty := true }) j =
          { st i with pos := v, localDirty := true } from by simp [upd, hj]] at hjp
        exact hp j p (by rw [hj]; exact hjp)
      · rw [show upd st i (fun n => { n with pos := v, localDirty := true }) j =
          st j from by simp [upd, hj]] at hjp
        exact hp j p hjp
    · intro hfalse
      simp at hfalse
  | setRot i q =>
    refine WFT_markWD_upd st h i _ ?_ ?_
    · intro j p hjp
      by_cases hj : j = i
      · rw [show upd st i (fun n => { n with rot := q, localDirty := true }) j =
          { st i with rot := q, localDirty := true } from by simp [upd, hj]] at hjp
        exact hp j p (by rw [hj]; exact hjp)
      · rw [show upd st i (fun n => { n with rot := q, localDirty := true }) j =
          st j from by simp [upd, hj]] at hjp
        exact hp j p hjp
    · intro hfalse
      simp at hfalse
  | setScl i v =>
    refine WFT_markWD_upd st h i _ ?_ ?_
    · intro j p hjp
      by_cases hj : j = i
      · rw [show upd st i (fun n => { n with scl := v, localDirty := true }) j =
          { st i with scl := v, localDirty := true } from by simp [upd, hj]] at hjp
        exact hp j p (by rw [hj]; exact hjp)
      · rw [show upd st i (fun n => { n with scl := v, localDirty := true }) j =
          st j from by simp [upd, hj]] at hjp
        exact hp j p hjp
    · intro hfalse
      simp at hfalse
  | setParent i pnew =>
    simp only [applyMut]
    split
    · exact h
    · split
      · rename_i hne hguard
        refine WFT_markWD_upd st h i _ ?_ ?_
        · intro j q hjq
          by_cases hj : j = i
          · rw [show upd st i (fun n => { n with parent := pnew }) j =
              { st i with parent := pnew } from by simp [upd, hj]] at hjq
            simp only at hjq
            rw [hjq] at hguard
            simp only [decide_eq_true_eq] at hguard
            rw [hj]
            exact hguard
          · rw [show upd st i (fun n => { n with parent := pnew }) j =
              st j from by simp [upd, hj]] at hjq
            exact hp j q hjq
        · intro hfalse
          simp only at hfalse ⊢
          exact h.2.1 i hfalse
      · exact h

/-- A whole mutation sequence preserves the cache invariant. -/
theorem WFT_applyMuts (st : TState α) (h : WFT st) :
    ∀ ms : List (Mut α), WFT (applyMuts st ms) := by
  intro ms
  induction ms generalizing st with
  | nil => exact h
  | cons m ms ih => exact ih (applyMut st m) (WFT_applyMut st h m)

/-- The `local_matrix` read returns the TRS of the current local data,
preserves the invariant and does not touch the geometry. -/
theorem readLocal_spec (st : TState α) (h : WFT st) (i : Nat) :
    (readLocal st i).1 = trsOf (st i) ∧ WFT (readLocal st i).2 ∧
    sameGeo st (readLocal st i).2 ∧
    (∀ j, ((readLocal st i).2 j).worldDirty = (st j).worldDirty ∧
      ((readLocal st i).2 j).worldMat = (st j).worldMat) := by
  obtain ⟨hp, hl, hw⟩ := h
  cases hd : (st i).localDirty with
  | false =>
    cases hm : (st i).localMat with
    | none =>
      rw [hl i hd] at hm
      exact absurd hm (by simp)
    | some l =>
      have hval : l = trsOf (st i) := by
        have := hl i hd
        rw [hm] at this
        exact Option.some.inj this
      refine ⟨?_, ?_, ?_, ?_⟩
      · simp only [readLocal, hd, hm]
        exact hval
      · simp only [readLocal, hd, hm]
        exact ⟨hp, hl, hw⟩
      · simp only [readLocal, hd, hm]
        exact sameGeo_refl st
      · simp [readLocal, hd, hm]
  | true =>
    have hupd : ∀ j, (readLocal st i).2 j =
        (if j = i then { st i with localMat := some (trsOf (st i)), localDirty := false } else st j) := by
      intro j
      simp only [readLocal, hd]
      by_cases hj : j = i <;> simp [upd, hj]
    have hgeo : sameGeo st (readLocal st i).2 := by
      intro j
      rw [hupd j]
      by_cases hj : j = i <;> simp [hj, trsOf]
    refine ⟨?_, ⟨?_, ?_, ?_⟩, hgeo, ?_⟩
    · simp only [readLocal, hd]
    · intro j p hjp
      rw [hupd j] at hjp
      by_cases hj : j = i
      · simp only [hj, if_pos] at hjp
        rw [hj]
        exact hp i p hjp
      · simp only [hj, if_neg, ite_false] at hjp
        exact hp j p hjp
    · intro j hdj
      rw [hupd j] at hdj ⊢
      by_cases hj : j = i
      · simp only [hj, if_pos]
        have htr : trsOf { st i with localMat := some (trsOf (st i)), localDirty := false } = trsOf (st i) := rfl
        rw [htr]
      · simp only [hj, ite_false] at hdj ⊢
        exact hl j hdj
    · intro j hdj
      rw [hupd j] at hdj ⊢
      have hfr : freshWAt (readLocal st i).2 j = freshWAt st j :=
        freshWAt_sameGeo hgeo j
      by_cases hj : j = i
      · simp only [hj, if_pos] at hdj ⊢
        have hwdj : (st i).worldDirty = false := hdj
        have hwm := hw i hwdj
        have hfr' : freshWAt (readLocal st i).2 i = freshWAt st i :=
          freshWAt_sameGeo hgeo i
        rw [hfr']
        exact hwm
      · simp only [hj, ite_false] at hdj ⊢
        rw [hfr]
        exact hw j hdj
    · intro j
      rw [hupd j]
      by_cases hj : j = i <;> simp [hj]

/-- Writing a freshly computed world matrix into the cache and clearing the
world-dirty flag preserves the invariant. -/
theorem writeWorld_spec (st0 st1 : TState α) (h1 : WFT st1)
    (hgeo : sameGeo st0 st1) (i : Nat) (w : Matrix4 α)
    (hwv : w = freshWAt st0 i) :
    WFT (upd st1 i fun n => { n with worldMat := some w, worldDirty := false }) ∧
    sameGeo st0 (upd st1 i fun n => { n with worldMat := some w, worldDirty := false }) := by
  obtain ⟨hp, hl, hw⟩ := h1
  have hupd : ∀ j, (upd st1 i fun n => { n with worldMat := some w, worldDirty := false }) j =
      (if j = i then { st1 i with worldMat := some w, worldDirty := false } else st1 j) := by
    intro j
    by_cases hj : j = i <;> simp [upd, hj]
  have hgeo1 : sameGeo st1 (upd st1 i fun n => { n with worldMat := some w, worldDirty := false }) := by
    intro k
    rw [hupd k]
    by_cases hk : k = i <;> simp [hk, trsOf]
  have hgeo2 : sameGeo st0 (upd st1 i fun n => { n with worldMat := some w, worldDirty := false }) :=
    sameGeo_trans hgeo hgeo1
  refine ⟨⟨?_, ?_, ?_⟩, hgeo2⟩
  · intro j p hjp
    rw [hupd j] at hjp
    by_cases hj : j = i
    · simp only [hj, if_pos] at hjp
      rw [hj]
      exact hp i p hjp
    · simp only [hj, ite_false] at hjp
      exact hp j p hjp
  · intro j hdj
    rw [hupd j] at hdj ⊢
    by_cases hj : j = i
    · simp only [hj, if_pos] at hdj ⊢
      exact hl i hdj
    · simp only [hj, ite_false] at hdj ⊢
      exact hl j hdj
  · intro j hdj
    rw [hupd j] at hdj ⊢
    by_cases hj : j = i
    · simp only [hj, if_pos] at hdj ⊢
      have hf2 : freshWAt (upd st1 i fun n => { n with worldMat := some w, worldDirty := false }) i =
          freshWAt st0 i := freshWAt_sameGeo hgeo2 i
      rw [hf2]
      show some w = some (freshWAt st0 i)
      exact congrArg some hwv
    · simp only [hj, ite_false] at hdj ⊢
      rw [hw j hdj]
      exact congrArg some (freshWAt_sameGeo hgeo1 j).symm

/-- Correctness of the `world_matrix` read: on an invariant-satisfying
state, the value returned for node `i` is the reference world matrix of
the current state (for a root the TRS of its current local data, for a
child the parent's fresh world matrix times the own local TRS), the
invariant is preserved, and the geometry is untouched. -/
theorem readWorld_spec (st : TState α) (h : WFT st) :
    ∀ (fuel i : Nat), i ≤ fuel →
      (readWorld st fuel i).1 = freshWAt st i ∧
      WFT (readWorld st fuel i).2 ∧ sameGeo st (readWorld st fuel i).2 := by
  have hroot : ∀ i, (st i).parent = none →
      ((readWorldRoot st i).1 = freshWAt st i ∧
        WFT (readWorldRoot st i).2 ∧ sameGeo st (readWorldRoot st i).2) := by
    intro i hpar
    obtain ⟨hlv, hlw, hlg, _⟩ := readLocal_spec st h i
    have hfresh : (readLocal st i).1 = freshWAt st i := by
      rw [hlv, freshWAt_root st i hpar]
    exact ⟨hfresh, (writeWorld_spec st (readLocal st i).2 hlw hlg i _ hfresh).1,
      (writeWorld_spec st (readLocal st i).2 hlw hlg i _ hfresh).2⟩
  intro fuel
  induction fuel with
  | zero =>
    intro i hi
    cases hwd : (st i).worldDirty with
    | false =>
      cases hwm : (st i).worldMat with
      | none =>
        simp only [readWorld, hwd, hwm]
        cases hpar : (st i).parent with
        | none => exact hroot i hpar
        | some p =>
          have : p < i := h.1 i p hpar
          omega
      | some w =>
        simp only [readWorld, hwd, hwm]
        have := h.2.2 i hwd
        rw [hwm] at this
        exact ⟨Option.some.inj this.symm |>.symm, h, sameGeo_refl st⟩
    | true =>
      simp only [readWorld, hwd]
      cases hpar : (st i).parent with
      | none => exact hroot i hpar
      | some p =>
        have : p < i := h.1 i p hpar
        omega
  | succ f ih =>
    intro i hi
    cases hwd : (st i).worldDirty with
    | false =>
      cases hwm : (st i).worldMat with
      | none =>
        simp only [readWorld, hwd, hwm]
        cases hpar : (st i).parent with
        | none => exact hroot i hpar
        | some p =>
          have hpi : p < i := h.1 i p hpar
          obtain ⟨hpv, hpw, hpg⟩ := ih p (by omega)
          obtain ⟨hlv, hlw, hlg, _⟩ := readLocal_spec (readWorld st f p).2 hpw i
          have hgeo : sameGeo st (readLocal (readWorld st f p).2 i).2 :=
            sameGeo_trans hpg hlg
          have htrs : trsOf ((readWorld st f p).2 i) = trsOf (st i) := (hpg i).2
          have hfresh : (readWorld st f p).1.mul (readLocal (readWorld st f p).2 i).1 =
              freshWAt st i := by
            rw [hpv, hlv, htrs]
            exact (freshWAt_child h.1 i p hpar).symm
          exact ⟨hfresh,
            (writeWorld_spec st (readLocal (readWorld st f p).2 i).2 hlw hgeo i _ hfresh).1,
            (writeWorld_spec st (readLocal (readWorld st f p).2 i).2 hlw hgeo i _ hfresh).2⟩
      | some w =>
        simp only [readWorld, hwd, hwm]
        have := h.2.2 i hwd
        rw [hwm] at this
        exact ⟨Option.some.inj this.symm |>.symm, h, sameGeo_refl st⟩
    | true =>
      simp only [readWorld, hwd]
      cases hpar : (st i).parent with
      | none => exact hroot i hpar
      | some p =>
        have hpi : p < i := h.1 i p hpar
        obtain ⟨hpv, hpw, hpg⟩ := ih p (by omega)
        obtain ⟨hlv, hlw, hlg, _⟩ := readLocal_spec (readWorld st f p).2 hpw i
        have hgeo : sameGeo st (readLocal (readWorld st f p).2 i).2 :=
          sameGeo_trans hpg hlg
        have htrs : trsOf ((readWorld st f p).2 i) = trsOf (st i) := (hpg i).2
        have hfresh : (readWorld st f p).1.mul (readLocal (readWorld st f p).2 i).1 =
            freshWAt st i := by
          rw [hpv, hlv, htrs]
          exact (freshWAt_child h.1 i p hpar).symm
        exact ⟨hfresh,
          (writeWorld_spec st (readLocal (readWorld st f p).2 i).2 hlw hgeo i _ hfresh).1,
          (writeWorld_spec st (readLocal (readWorld st f p).2 i).2 hlw hgeo i _ hfresh).2⟩

/-- Claim C1: for every Transform tree (any invariant-satisfying state, in
particular any freshly built tree, whose caches start dirty) and every
sequence of mutations (set position / rotation / scale, re-parent), the
next read of `world_matrix` on any node returns the non-stale reference
value `freshWAt`, which for a root node is the TRS of its current local
position/rotation/scale, and for a non-root node is the parent's reference
world matrix (the value `parent.world_matrix` itself reads back) times the
current local TRS — all evaluated at read time. -/
theorem world_matrix_read_fresh (st : TState α) (h : WFT st)
    (ms : List (Mut α)) (i : Nat) :
    (readWorldAt (applyMuts st ms) i).1 = freshWAt (applyMuts st ms) i ∧
    ((applyMuts st ms i).parent = none →
      freshWAt (applyMuts st ms) i = trsOf (applyMuts st ms i)) ∧
    (∀ p, (applyMuts st ms i).parent = some p →
      freshWAt (applyMuts st ms) i =
        ((readWorldAt (applyMuts st ms) p).1).mul (trsOf (applyMuts st ms i))) := by
  have hWF := WFT_applyMuts st h ms
  refine ⟨(readWorld_spec (applyMuts st ms) hWF i i le_rfl).1, ?_, ?_⟩
  · intro hroot
    exact freshWAt_root (applyMuts st ms) i hroot
  · intro p hpar
    simp only [readWorldAt]
    rw [(readWorld_spec (applyMuts st ms) hWF p p le_rfl).1]
    exact freshWAt_child hWF.1 i p hpar

/-- A freshly constructed `Transform` node: dirty flags set, caches empty,
no parent, identity local data (`Transform.__init__`). -/
def initNode : TNode ℚ :=
  ⟨none, ⟨0, 0, 0⟩, ⟨0, 0, 0, 1⟩, ⟨1, 1, 1⟩, none, none, true, true⟩

/-- A scene of freshly constructed transforms. -/
def initState : TState ℚ := fun _ => initNode

theorem initState_WFT : WFT initState := by
  refine ⟨?_, ?_, ?_⟩
  · intro i p hp
    simp [initState, initNode] at hp
  · intro i hd
    simp [initState, initNode] at hd
  · intro i hd
    simp [initState, initNode] at hd

/-- Witness for C1: re-parent node 1 under node 0, then move node 0; the
next `world_matrix` read on node 1 is fresh. -/
theorem world_matrix_read_fresh_witness :
    WFT initState ∧
    (readWorldAt (applyMuts initState
        [Mut.setParent 1 (some 0), Mut.setPos 0 ⟨1, 2, 3⟩]) 1).1 =
      freshWAt (applyMuts initState
        [Mut.setParent 1 (some 0), Mut.setPos 0 ⟨1, 2, 3⟩]) 1 :=
  ⟨initState_WFT, (world_matrix_read_fresh initState initState_WFT _ 1).1⟩

/-- Vector magnitude (`Vector3.magnitude`), real-valued because of the
square root. -/
noncomputable def Vector3.magnitude (v : Vector3 ℝ) : ℝ :=
  Real.sqrt (v.x * v.x + v.y * v.y + v.z * v.z)

/-- Normalization (`Vector3.normalized`): the zero vector when the
magnitude is below `EPSILON`, else the componentwise division. -/
noncomputable def Vector3.normalized (v : Vector3 ℝ) : Vector3 ℝ :=
  if v.magnitude < EPSILON ℝ then ⟨0, 0, 0⟩
  else ⟨v.x / v.magnitude, v.y / v.magnitude, v.z / v.magnitude⟩

/-- Claim C7: a vector of magnitude at least `EPSILON` normalizes to
magnitude within `EPSILON` of 1 (exactly 1 here), a vector below the
threshold — in particular the zero vector — normalizes to the zero vector,
and no near-zero division ever happens. -/
theorem normalized_spec (v : Vector3 ℝ) :
    (EPSILON ℝ ≤ v.magnitude → |(v.normalized).magnitude - 1| < EPSILON ℝ) ∧
    (v.magnitude < EPSILON ℝ → v.normalized = ⟨0, 0, 0⟩) := by
  have hε : (0 : ℝ) < EPSILON ℝ := by norm_num [EPSILON]
  constructor
  · intro hm
    have hmpos : 0 < v.magnitude := lt_of_lt_of_le hε hm
    have hmne : v.magnitude ≠ 0 := ne_of_gt hmpos
    have hmsq : v.magnitude * v.magnitude = v.x * v.x + v.y * v.y + v.z * v.z := by
      simp only [Vector3.magnitude]
      exact Real.mul_self_sqrt
        (add_nonneg (add_nonneg (mul_self_nonneg _) (mul_self_nonneg _))
          (mul_self_nonneg _))
    have hne : ¬ (v.magnitude < EPSILON ℝ) := not_lt.mpr hm
    have hmag3 : ∀ a b c : ℝ, Vector3.magnitude ⟨a, b, c⟩ =
        Real.sqrt (a * a + b * b + c * c) := fun a b c => rfl
    have hunit : (v.normalized).magnitude = 1 := by
      simp only [Vector3.normalized, hne, if_false]
      have harg : v.x / v.magnitude * (v.x / v.magnitude) +
          v.y / v.magnitude * (v.y / v.magnitude) +
          v.z / v.magnitude * (v.z / v.magnitude) = 1 := by
        field_simp
        linarith [hmsq]
      rw [hmag3, harg, Real.sqrt_one]
    rw [hunit]
    simpa using hε
  · intro hm
    simp [Vector3.normalized, hm]

/-- Witness for C7 at the unit vector `(1, 0, 0)` and the zero vector. -/
theorem normalized_spec_witness :
    (EPSILON ℝ ≤ Vector3.magnitude ⟨1, 0, 0⟩ ∧
      |(Vector3.normalized ⟨1, 0, 0⟩).magnitude - 1| < EPSILON ℝ) ∧
    (Vector3.magnitude ⟨0, 0, 0⟩ < EPSILON ℝ ∧
      Vector3.normalized ⟨0, 0, 0⟩ = (⟨0, 0, 0⟩ : Vector3 ℝ)) := by
  have h1 : Vector3.magnitude (⟨1, 0, 0⟩ : Vector3 ℝ) = 1 := by
    simp [Vector3.magnitude]
  have h0 : Vector3.magnitude (⟨0, 0, 0⟩ : Vector3 ℝ) = 0 := by
    simp [Vector3.magnitude]
  have hA : EPSILON ℝ ≤ Vector3.magnitude (⟨1, 0, 0⟩ : Vector3 ℝ) := by
    rw [h1]
    norm_num [EPSILON]
  have hB : Vector3.magnitude (⟨0, 0, 0⟩ : Vector3 ℝ) < EPSILON ℝ := by
    rw [h0]
    norm_num [EPSILON]
  exact ⟨⟨hA, (normalized_spec ⟨1, 0, 0⟩).1 hA⟩,
    ⟨hB, (normalized_spec ⟨0, 0, 0⟩).2 hB⟩⟩

/-- Degrees-to-radians factor (`DEG_TO_RAD` in math3d.py). -/
noncomputable def degToRad : ℝ := Real.pi / 180

/-- `Camera.__init__` parameter values (fov 60 degrees, aspect 16/9, near
0.1, far 1000, orthographic size 5, perspective mode, projection dirty). -/
noncomputable def Camera.init : Camera ℝ :=
  ⟨⟨0, 0, 0⟩, ⟨0, 0, 0, 1⟩, ⟨1, 1, 1⟩, 60 * degToRad, 16 / 9, 1 / 10, 1000, 5,
   false, true⟩

/-- The `fov` setter: `clamp(value, 0.01, PI - 0.01)` and mark the
projection dirty. -/
noncomputable def Camera.setFov (c : Camera ℝ) (v : ℝ) : Camera ℝ :=
  { c with fov := clampF v (1 / 100) (Real.pi - 1 / 100), projectionDirty := true }

/-- The parameter ranges claimed by C10. -/
def Camera.paramsInRange (c : Camera ℝ) : Prop :=
  (1 / 100 ≤ c.fov ∧ c.fov ≤ Real.pi - 1 / 100) ∧ 1 / 100 ≤ c.aspect ∧
  1 / 1000 ≤ c.near

/-- Claim C10: the initial camera parameters are in range, and after any
assignment to `fov`, `aspect` or `near_clip` — with any real argument —
the stored parameters satisfy `fov` in `[0.01, pi - 0.01]`,
`aspect >= 0.01` and `near_clip >= 0.001`: out-of-range values are
silently clamped by the setters, not stored verbatim and not rejected. -/
theorem camera_setters_clamp :
    Camera.init.paramsInRange ∧
    ∀ (c : Camera ℝ) (v : ℝ), c.paramsInRange →
      (c.setFov v).paramsInRange ∧ (c.setAspect v).paramsInRange ∧
      (c.setNearClip v).paramsInRange := by
  have hpi := Real.pi_gt_three
  constructor
  · refine ⟨⟨?_, ?_⟩, ?_, ?_⟩
    · show 1 / 100 ≤ 60 * degToRad
      simp only [degToRad]
      nlinarith
    · show 60 * degToRad ≤ Real.pi - 1 / 100
      simp only [degToRad]
      nlinarith
    · show (1 : ℝ) / 100 ≤ 16 / 9
      norm_num
    · show (1 : ℝ) / 1000 ≤ 1 / 10
      norm_num
  · intro c v hc
    obtain ⟨⟨hf1, hf2⟩, ha, hn⟩ := hc
    refine ⟨⟨⟨?_, ?_⟩, ha, hn⟩, ⟨⟨hf1, hf2⟩, ?_, hn⟩, ⟨⟨hf1, hf2⟩, ha, ?_⟩⟩
    · exact le_max_left _ _
    · exact max_le (by nlinarith) (min_le_left _ _)
    · exact le_max_left _ _
    · exact le_max_left _ _

/-- Witness for C10: the initial camera, and a `fov` assignment of 100
radians which gets clamped into range. -/
theorem camera_setters_clamp_witness :
    Camera.init.paramsInRange ∧ (Camera.init.setFov 100).paramsInRange :=
  ⟨camera_setters_clamp.1,
   (camera_setters_clamp.2 Camera.init 100 camera_setters_clamp.1).1⟩

/-- Perspective projection body (`Matrix4.perspective`) with the
`tan(fov/2)` value passed in, so that the matrix entries stay field
generic. -/
def Matrix4.perspectiveAux (tanHalfFov aspect near far : α) : Matrix4 α :=
  { Matrix4.zero with
    m00 := 1 / (aspect * tanHalfFov)
    m11 := 1 / tanHalfFov
    m22 := -(far + near) / (far - near)
    m23 := -(2 * far * near) / (far - near)
    m32 := -1 }

/-- The perspective projection matrix (`Matrix4.perspective`). -/
noncomputable def Matrix4.perspective (fov aspect near far : ℝ) : Matrix4 ℝ :=
  Matrix4.perspectiveAux (Real.tan (fov / 2)) aspect near far

/-- The orthographic projection matrix (`Matrix4.orthographic`). -/
def Matrix4.orthographic (l r bottom top near far : α) : Matrix4 α :=
  { Matrix4.zero with
    m00 := 2 / (r - l)
    m11 := 2 / (top - bottom)
    m22 := -2 / (far - near)
    m03 := -(r + l) / (r - l)
    m13 := -(top + bottom) / (top - bottom)
    m23 := -(far + near) / (far - near)
    m33 := 1 }

/-- The camera transform's world matrix: the camera owns a root
`Transform`, whose world matrix is `Matrix4.trs` of its local data. -/
def Camera.worldMatrix (c : Camera α) : Matrix4 α :=
  Matrix4.trs c.pos c.rot c.scl

/-- The `Camera.view_matrix` property:
`self.transform.world_matrix.inverse or Matrix4.identity()`. -/
def Camera.viewMatrix (c : Camera α) : Matrix4 α :=
  (c.worldMatrix.inverse).getD Matrix4.identity

/-- The `Camera.projection_matrix` property (the cache always holds this
value for the current parameters). -/
noncomputable def Camera.projectionMatrix (c : Camera ℝ) : Matrix4 ℝ :=
  if c.isOrtho then
    Matrix4.orthographic (-(c.orthoSize * c.aspect)) (c.orthoSize * c.aspect)
      (-c.orthoSize) c.orthoSize c.near c.far
  else Matrix4.perspective c.fov c.aspect c.near c.far

/-- The `Camera.world_to_screen(world_pos, screen_width, screen_height)`
call: view-space transform, rejection when `view_pos.z >= 0`, projection
(with perspective divide inside `transform_point`) and viewport mapping. -/
noncomputable def Camera.worldToScreen (c : Camera ℝ) (p : Vector3 ℝ)
    (w h : ℤ) : Option (ℝ × ℝ × ℝ) :=
  let viewPos := c.viewMatrix.transformPoint p
  if 0 ≤ viewPos.z then none
  else
    let clipPos := c.projectionMatrix.transformPoint viewPos
    some ((clipPos.x + 1) * (1 / 2) * (w : ℝ),
      (1 - clipPos.y) * (1 / 2) * (h : ℝ), -viewPos.z)

/-- Claim C3: for every world point and screen size, `world_to_screen`
returns `None` exactly when the view-space z (the point transformed by the
inverse of the camera's world matrix) is at least 0, and otherwise returns
`((ndc_x+1)*0.5*W, (1-ndc_y)*0.5*H, -view_z)` where the NDC coordinates
come from the projection matrix's projective transform. -/
theorem worldToScreen_spec (c : Camera ℝ) (p : Vector3 ℝ) (w h : ℤ)
    (V : Matrix4 ℝ) (hV : c.worldMatrix.inverse = some V) :
    (c.worldToScreen p w h = none ↔ 0 ≤ (V.transformPoint p).z) ∧
    ((V.transformPoint p).z < 0 →
      c.worldToScreen p w h = some
        (((c.projectionMatrix.transformPoint (V.transformPoint p)).x + 1) *
            (1 / 2) * (w : ℝ),
         (1 - (c.projectionMatrix.transformPoint (V.transformPoint p)).y) *
            (1 / 2) * (h : ℝ),
         -(V.transformPoint p).z)) := by
  have hview : c.viewMatrix = V := by
    simp [Camera.viewMatrix, hV]
  constructor
  · simp only [Camera.worldToScreen, hview]
    by_cases hz : 0 ≤ (V.transformPoint p).z
    · simp [hz]
    · simp [hz]
  · intro hz
    simp only [Camera.worldToScreen, hview]
    rw [if_neg (not_le.mpr hz)]

/-- The initial camera sits at the origin with identity rotation and unit
scale, so its world matrix is the identity. -/
theorem camera_init_worldMatrix : Camera.init.worldMatrix = Matrix4.identity := by
  norm_num [Camera.worldMatrix, Camera.init, Matrix4.trs, Matrix4.fromQuaternion,
    Matrix4.identity]

theorem camera_init_worldMatrix_inverse :
    Camera.init.worldMatrix.inverse = some Matrix4.identity := by
  rw [camera_init_worldMatrix]
  norm_num [Matrix4.inverse, Matrix4.identity, EPSILON]

/-- Witness for C3 with the initial camera and the point `(0, 0, 1)`,
whose view-space z is nonnegative. -/
theorem worldToScreen_spec_witness :
    Camera.init.worldMatrix.inverse = some Matrix4.identity ∧
    (Camera.init.worldToScreen ⟨0, 0, 1⟩ 100 100 = none ↔
      0 ≤ ((Matrix4.identity : Matrix4 ℝ).transformPoint ⟨0, 0, 1⟩).z) :=
  ⟨camera_init_worldMatrix_inverse,
   (worldToScreen_spec Camera.init ⟨0, 0, 1⟩ 100 100 Matrix4.identity
     camera_init_worldMatrix_inverse).1⟩

/-- Quaternion from a rotation matrix (`Quaternion.from_matrix`),
trace-based branch selection as in the source. -/
noncomputable def Quaternion.fromMatrix (m : Matrix4 ℝ) : Quaternion ℝ :=
  let trace := m.m00 + m.m11 + m.m22
  if 0 < trace then
    let s := 0.5 / Real.sqrt (trace + 1)
    ⟨(m.m21 - m.m12) * s, (m.m02 - m.m20) * s, (m.m10 - m.m01) * s, 0.25 / s⟩
  else if m.m00 > m.m11 ∧ m.m00 > m.m22 then
    let s := 2 * Real.sqrt (1 + m.m00 - m.m11 - m.m22)
    ⟨0.25 * s, (m.m01 + m.m10) / s, (m.m02 + m.m20) / s, (m.m21 - m.m12) / s⟩
  else if m.m11 > m.m22 then
    let s := 2 * Real.sqrt (1 + m.m11 - m.m00 - m.m22)
    ⟨(m.m01 + m.m10) / s, 0.25 * s, (m.m12 + m.m21) / s, (m.m02 - m.m20) / s⟩
  else
    let s := 2 * Real.sqrt (1 + m.m22 - m.m00 - m.m11)
    ⟨(m.m02 + m.m20) / s, (m.m12 + m.m21) / s, 0.25 * s, (m.m10 - m.m01) / s⟩

/-- Look rotation (`Quaternion.look_rotation`): basis matrix with columns
`right = up x forward`, `actual_up = forward x right` and `forward`, all
from the normalized inputs, then `from_matrix`. -/
noncomputable def Quaternion.lookRotation (forward up : Vector3 ℝ) : Quaternion ℝ :=
  let f := forward.normalized
  let r := (up.cross f).normalized
  let u := f.cross r
  Quaternion.fromMatrix
    ⟨r.x, u.x, f.x, 0, r.y, u.y, f.y, 0, r.z, u.z, f.z, 0, 0, 0, 0, 1⟩

/-- `Transform.look_at` on a camera's root transform: the direction from
the camera's world position to the target; nothing happens when it is
degenerate, else the world rotation (= local rotation for a root) becomes
`look_rotation(direction, up)`. -/
noncomputable def Camera.lookAt (c : Camera ℝ) (target up : Vector3 ℝ) : Camera ℝ :=
  let direction := target.sub c.pos
  if direction.magnitudeSquared < EPSILON ℝ then c
  else { c with rot := Quaternion.lookRotation direction up }

/-- `Camera.set_look_at(eye, target, up)`: place the camera then look at
the target. -/
noncomputable def Camera.setLookAt (c : Camera ℝ) (eye target up : Vector3 ℝ) :
    Camera ℝ :=
  Camera.lookAt { c with pos := eye } target up

/-- The camera of spec scenario A: at world position `(0, 0, 5)` looking at
the origin with up `(0, 1, 0)`, fov 60 degrees, aspect 1, near 0.1 and
far 100. -/
noncomputable def cameraSceneA : Camera ℝ :=
  ((((Camera.init.setFov (60 * degToRad)).setAspect 1).setNearClip
      (1 / 10)).setFarClip 100).setLookAt ⟨0, 0, 5⟩ ⟨0, 0, 0⟩ ⟨0, 1, 0⟩

theorem real_sqrt_twentyfive : Real.sqrt 25 = 5 := by
  rw [show (25 : ℝ) = 5 ^ 2 by norm_num]
  exact Real.sqrt_sq (by norm_num)

theorem real_sqrt_four : Real.sqrt 4 = 2 := by
  rw [show (4 : ℝ) = 2 ^ 2 by norm_num]
  exact Real.sqrt_sq (by norm_num)

theorem normalized_back5 :
    Vector3.normalized ⟨0, 0, -5⟩ = (⟨0, 0, -1⟩ : Vector3 ℝ) := by
  have hm : Vector3.magnitude (⟨0, 0, -5⟩ : Vector3 ℝ) = 5 := by
    simp only [Vector3.magnitude]
    norm_num [real_sqrt_twentyfive]
  norm_num [Vector3.normalized, hm, EPSILON]

theorem normalized_left1 :
    Vector3.normalized ⟨-1, 0, 0⟩ = (⟨-1, 0, 0⟩ : Vector3 ℝ) := by
  have hm : Vector3.magnitude (⟨-1, 0, 0⟩ : Vector3 ℝ) = 1 := by
    simp only [Vector3.magnitude]
    norm_num
  norm_num [Vector3.normalized, hm, EPSILON]

theorem fromMatrix_sceneA :
    Quaternion.fromMatrix ⟨-1, 0, 0, 0, 0, 1, 0, 0, 0, 0, -1, 0, 0, 0, 0, 1⟩ =
      (⟨0, 1, 0, 0⟩ : Quaternion ℝ) := by
  norm_num [Quaternion.fromMatrix, real_sqrt_four]

theorem lookRotation_sceneA :
    Quaternion.lookRotation ⟨0, 0, -5⟩ ⟨0, 1, 0⟩ = (⟨0, 1, 0, 0⟩ : Quaternion ℝ) := by
  simp only [Quaternion.lookRotation, normalized_back5]
  rw [show Vector3.cross ⟨0, 1, 0⟩ (⟨0, 0, -1⟩ : Vector3 ℝ) = ⟨-1, 0, 0⟩ from by
    norm_num [Vector3.cross]]
  rw [normalized_left1]
  rw [show Vector3.cross (⟨0, 0, -1⟩ : Vector3 ℝ) ⟨-1, 0, 0⟩ = ⟨0, 1, 0⟩ from by
    norm_num [Vector3.cross]]
  exact fromMatrix_sceneA

theorem cameraSceneA_pos : cameraSceneA.pos = ⟨0, 0, 5⟩ := by
  simp only [cameraSceneA, Camera.setLookAt, Camera.lookAt]
  norm_num [Vector3.sub, Vector3.magnitudeSquared, EPSILON]

theorem cameraSceneA_rot : cameraSceneA.rot = ⟨0, 1, 0, 0⟩ := by
  simp only [cameraSceneA, Camera.setLookAt, Camera.lookAt]
  norm_num [Vector3.sub, Vector3.magnitudeSquared, EPSILON]
  rw [show Vector3.mk (0 : ℝ) 0 (-5) = (⟨0, 0, -5⟩ : Vector3 ℝ) from rfl]
  exact lookRotation_sceneA

theorem cameraSceneA_scl : cameraSceneA.scl = ⟨1, 1, 1⟩ := by
  simp only [cameraSceneA, Camera.setLookAt, Camera.lookAt]
  norm_num [Vector3.sub, Vector3.magnitudeSquared, EPSILON]
  rfl

theorem cameraSceneA_worldMatrix :
    cameraSceneA.worldMatrix =
      ⟨-1, 0, 0, 0, 0, 1, 0, 0, 0, 0, -1, 5, 0, 0, 0, 1⟩ := by
  rw [Camera.worldMatrix, cameraSceneA_pos, cameraSceneA_rot, cameraSceneA_scl]
  norm_num [Matrix4.trs, Matrix4.fromQuaternion]

theorem cameraSceneA_view :
    cameraSceneA.viewMatrix =
      ⟨-1, 0, 0, 0, 0, 1, 0, 0, 0, 0, -1, 5, 0, 0, 0, 1⟩ := by
  rw [Camera.viewMatrix, cameraSceneA_worldMatrix]
  norm_num [Matrix4.inverse, EPSILON]

/-- Claim C6 fails on the code: the scenario-A camera, built through
`set_look_at` exactly as the spec describes, REJECTS the world origin it
is looking at — `world_to_screen((0,0,0), 100, 100)` returns `None`
instead of a point within one pixel of `(50, 50)`.
`Quaternion.look_rotation` orients the camera's local `+z` axis toward the
target, so the looked-at point gets view-space `z = +5`, and
`world_to_screen` treats nonnegative view z as "behind the camera". -/
theorem sceneA_rejects_center :
    cameraSceneA.worldToScreen ⟨0, 0, 0⟩ 100 100 = none := by
  have hvp : (⟨-1, 0, 0, 0, 0, 1, 0, 0, 0, 0, -1, 5, 0, 0, 0, 1⟩ :
      Matrix4 ℝ).transformPoint ⟨0, 0, 0⟩ = ⟨0, 0, 5⟩ := by
    norm_num [Matrix4.transformPoint, EPSILON]
  simp only [Camera.worldToScreen, cameraSceneA_view, hvp]
  norm_num

/-- Matrix decomposition (`Matrix4.decompose`): translation from the last
column; scales as the magnitudes of the three basis **columns**, with the
x scale negated when the determinant is negative; rotation from the
column-unscaled basis via `Quaternion.from_matrix`. -/
noncomputable def Matrix4.decompose (m : Matrix4 ℝ) :
    Vector3 ℝ × Quaternion ℝ × Vector3 ℝ :=
  let translation : Vector3 ℝ := ⟨m.m03, m.m13, m.m23⟩
  let sx0 := Vector3.magnitude ⟨m.m00, m.m10, m.m20⟩
  let sy := Vector3.magnitude ⟨m.m01, m.m11, m.m21⟩
  let sz := Vector3.magnitude ⟨m.m02, m.m12, m.m22⟩
  let sx := if m.determinant < 0 then -sx0 else sx0
  let rotM : Matrix4 ℝ :=
    ⟨m.m00 / sx, m.m01 / sy, m.m02 / sz, 0,
     m.m10 / sx, m.m11 / sy, m.m12 / sz, 0,
     m.m20 / sx, m.m21 / sy, m.m22 / sz, 0,
     0, 0, 0, 1⟩
  (translation, Quaternion.fromMatrix rotM, ⟨sx, sy, sz⟩)

/-- Claim C5 fails on the code: for the unit quaternion `(0, 0, 3/5, 4/5)`
(a rotation about z) and the all-positive scale `(1, 2, 1)`,
`Matrix4.trs(t, r, s).decompose()` does not return the scale within
tolerance `1e-4` — the x scale comes out as `sqrt(2353)/25 ≈ 1.94`, not 1.
`trs` multiplies the rotation's **rows** by the scale components (building
scale-after-rotation), while `decompose` measures the **column** norms
(assuming rotation-after-scale), so the round trip breaks for any
non-uniform scale. -/
theorem trs_decompose_roundtrip_fails :
    ((0 : ℝ) * 0 + 0 * 0 + 3 / 5 * (3 / 5) + 4 / 5 * (4 / 5) = 1) ∧
    ¬ (Vector3.approximatelyEqual
          ((Matrix4.trs ⟨0, 0, 0⟩ ⟨0, 0, 3 / 5, 4 / 5⟩ ⟨1, 2, 1⟩).decompose).1
          ⟨0, 0, 0⟩ (1 / 10 ^ 4) ∧
        Quaternion.approximatelyEqual
          ((Matrix4.trs ⟨0, 0, 0⟩ ⟨0, 0, 3 / 5, 4 / 5⟩ ⟨1, 2, 1⟩).decompose).2.1
          ⟨0, 0, 3 / 5, 4 / 5⟩ (1 / 10 ^ 4) ∧
        Vector3.approximatelyEqual
          ((Matrix4.trs ⟨0, 0, 0⟩ ⟨0, 0, 3 / 5, 4 / 5⟩ ⟨1, 2, 1⟩).decompose).2.2
          ⟨1, 2, 1⟩ (1 / 10 ^ 4)) := by
  constructor
  · norm_num
  · intro hcl
    have hM : Matrix4.trs (⟨0, 0, 0⟩ : Vector3 ℝ) ⟨0, 0, 3 / 5, 4 / 5⟩ ⟨1, 2, 1⟩ =
        ⟨7 / 25, -24 / 25, 0, 0, 48 / 25, 14 / 25, 0, 0, 0, 0, 1, 0, 0, 0, 0, 1⟩ := by
      norm_num [Matrix4.trs, Matrix4.fromQuaternion]
    rw [hM] at hcl
    have hdet : (⟨7 / 25, -24 / 25, 0, 0, 48 / 25, 14 / 25, 0, 0, 0, 0, 1, 0,
        0, 0, 0, 1⟩ : Matrix4 ℝ).determinant = 2 := by
      norm_num [Matrix4.determinant]
    have hsx : ((⟨7 / 25, -24 / 25, 0, 0, 48 / 25, 14 / 25, 0, 0, 0, 0, 1, 0,
        0, 0, 0, 1⟩ : Matrix4 ℝ).decompose).2.2.x = Real.sqrt (2353 / 625) := by
      simp only [Matrix4.decompose, hdet]
      norm_num [Vector3.magnitude]
    have hs := hcl.2.2
    simp only [Vector3.approximatelyEqual] at hs
    rw [hsx] at hs
    have hroot : Real.sqrt (2353 / 625) ≥ 48 / 25 := by
      nlinarith [Real.sq_sqrt (show (0 : ℝ) ≤ 2353 / 625 by norm_num),
        Real.sqrt_nonneg (2353 / 625 : ℝ)]
    have habs : |Real.sqrt (2353 / 625) - (⟨1, 2, 1⟩ : Vector3 ℝ).x| ≥ 23 / 25 := by
      rw [show ((⟨1, 2, 1⟩ : Vector3 ℝ).x : ℝ) = 1 from rfl]
      rw [abs_of_nonneg (by linarith)]
      linarith
    have := hs.1
    linarith [this, habs]

end FT
